import Mathlib

/-!
# Verification of the fixed-malloc allocator

Shallow embedding of the linear (page-granular) allocator in
src/linear-malloc.c and the slab allocator in src/slab-malloc.c of the
fixed-malloc repository, together with proofs about the claims of its
specification.

Modelling conventions:
* a page number, size or address is a Nat; C size_t arithmetic that can
  wrap is written with an explicit mod 2^64;
* the metadata page (an array of bytes) is modelled as a write log
  (a list of index-value pairs, latest write first, unwritten bytes are 0,
  matching the zero fill performed by reinit); the 32-bit stores of the
  extended length encoding are modelled little-endian, matching the
  platforms the C targets;
* the circular intrusive lists are modelled by the lists of their record
  contents in link order (sentinel omitted); relocation of a record
  (move_region) does not change the record sequence, so it is invisible
  at this level;
* a linear pointer is Option Nat (none is NULL, some p points at the
  start of page p); a slab pointer is a raw byte address (a Nat);
* C functions that signal failure by returning page 0 are modelled
  faithfully: the scan helpers return 0 on failure and the callers test
  the result against 0, exactly as the source does.
-/

/-- A free- or deferred-region record, struct region_t of
src/linear-malloc.c (the CList link field is represented by the position
of the record in the ambient list). -/
structure Region where
  start_page : Nat
  pages : Nat
deriving DecidableEq

/-- One past the last page of a region. -/
def Region.stop (r : Region) : Nat := r.start_page + r.pages

/-- __fm_roundup of src/utils.h: x + ((~x + 1) & (round - 1)) in size_t
arithmetic. -/
def fm_roundup (x round : Nat) : Nat :=
  (x + (((2 ^ 64 - x % 2 ^ 64) % 2 ^ 64) &&& (round - 1))) % 2 ^ 64

/-- FM_PAGE_SIZE of src/linear-malloc.h. -/
def FM_PAGE_SIZE : Nat := 4096

/-- FM_LM_T_TRANSIENT of src/linear-malloc.h. -/
def FM_LM_T_TRANSIENT : Nat := 1

/-- FM_LM_T_PERSISTENT of src/linear-malloc.h. -/
def FM_LM_T_PERSISTENT : Nat := 2

/-- The metadata page: a byte-write log for the pages array of meta_t. -/
def MetaBytes : Type := List (Nat × Nat)

instance : DecidableEq MetaBytes :=
  inferInstanceAs (DecidableEq (List (Nat × Nat)))

/-- Write one byte of the metadata page. -/
def mset (m : MetaBytes) (i v : Nat) : MetaBytes := (i, v) :: m

/-- Read one byte of the metadata page (bytes never written are 0,
because fm_lm_reinit zero fills the page). -/
def mget (m : MetaBytes) (i : Nat) : Nat :=
  match m.find? (fun e => e.1 == i) with
  | some e => e.2
  | none => 0

/-- The 32-bit store of mark_alloced_pages, little-endian. -/
def write32 (m : MetaBytes) (a v : Nat) : MetaBytes :=
  mset (mset (mset (mset m a (v % 256)) (a + 1) (v / 256 % 256))
    (a + 2) (v / 65536 % 256)) (a + 3) (v / 16777216 % 256)

/-- The 32-bit load of fetch_alloced_pages, little-endian. -/
def read32 (m : MetaBytes) (a : Nat) : Nat :=
  mget m a + 256 * mget m (a + 1) + 65536 * mget m (a + 2) +
    16777216 * mget m (a + 3)

/-- mark_alloced_pages of src/linear-malloc.c. -/
def mark_alloced_pages (m : MetaBytes) (first_page pages : Nat) : MetaBytes :=
  if pages < 255 then
    mset m first_page pages
  else
    write32 (mset m first_page 255) (fm_roundup (first_page + 1) 4)
      (pages % 2 ^ 32)

/-- fetch_alloced_pages of src/linear-malloc.c. -/
def fetch_alloced_pages (m : MetaBytes) (first_page : Nat) : Nat :=
  let pages := mget m first_page
  if pages < 255 then pages
  else read32 m (fm_roundup (first_page + 1) 4)

/-- The whole mutable state of the linear allocator: the free-region
list (__free_regions, in link order), the deferred-free list
(__freed_memories, in link order) and the metadata page (__meta). -/
structure LMState where
  free : List Region
  freed : List Region
  meta : MetaBytes
deriving DecidableEq

/-- fm_lm_reinit of src/linear-malloc.c. none models FM_ABORT. The
zero_filled flag only controls whether the metadata page is zeroed by
memset or assumed zero; both branches give a zero metadata page, the
empty write log. -/
def fm_lm_reinit (buffer size : Nat) : Option LMState :=
  if buffer &&& (FM_PAGE_SIZE - 1) ≠ 0 then none
  else if size &&& (FM_PAGE_SIZE - 1) ≠ 0 then none
  else if size < 128 * 1024 ∨ 16 * 1024 * 1024 ≤ size then none
  else some { free := [⟨1, size / FM_PAGE_SIZE - 1⟩], freed := [], meta := [] }

/-- fm_lm_free of src/linear-malloc.c, taking the first page of the
freed run (ptr_to_page ptr). The region record written into the freed
run's first page is modelled by the record appended to the deferred
list. -/
def fm_lm_free (first_page : Nat) (s : LMState) : LMState :=
  let pages := fetch_alloced_pages s.meta first_page
  { s with freed := s.freed ++ [⟨first_page, pages⟩] }

/-- The loop of alloc_free_pages: scan the free list front to back for
the first region with enough pages, carve from its front. none when no
region fits; the carved region record is rewritten (move_region) or
unlinked, which leaves the list order unchanged. -/
def afp_go (req : Nat) : List Region → Option (Nat × List Region)
  | [] => none
  | r :: rest =>
    if req ≤ r.pages then
      some (r.start_page,
        if r.pages - req = 0 then rest
        else ⟨r.start_page + req, r.pages - req⟩ :: rest)
    else
      match afp_go req rest with
      | some (p, rest') => some (p, r :: rest')
      | none => none

/-- alloc_free_pages of src/linear-malloc.c: returns 0 when no region
fits, leaving the list unchanged. -/
def alloc_free_pages (req : Nat) (l : List Region) : Nat × List Region :=
  match afp_go req l with
  | some res => res
  | none => (0, l)

/-- The loop of alloc_free_pages_reverse: scan back to front for the
first region with enough pages, carve from its back (the record keeps
its first page, so no relocation happens). -/
def afp_rev_go (req : Nat) : List Region → Option (Nat × List Region)
  | [] => none
  | r :: rest =>
    match afp_rev_go req rest with
    | some (p, rest') => some (p, r :: rest')
    | none =>
      if req ≤ r.pages then
        some (r.start_page + r.pages - req,
          if r.pages - req = 0 then rest
          else ⟨r.start_page, r.pages - req⟩ :: rest)
      else none

/-- alloc_free_pages_reverse of src/linear-malloc.c. -/
def alloc_free_pages_reverse (req : Nat) (l : List Region) :
    Nat × List Region :=
  match afp_rev_go req l with
  | some res => res
  | none => (0, l)

/-- The loop of alloc_designated_free_pages: scan for the region that
starts exactly at start_page and has enough pages. -/
def adp_go (startp req : Nat) : List Region → Option (Nat × List Region)
  | [] => none
  | r :: rest =>
    if r.start_page = startp ∧ req ≤ r.pages then
      some (r.start_page,
        if r.pages - req = 0 then rest
        else ⟨r.start_page + req, r.pages - req⟩ :: rest)
    else
      match adp_go startp req rest with
      | some (p, rest') => some (p, r :: rest')
      | none => none

/-- alloc_designated_free_pages of src/linear-malloc.c. -/
def alloc_designated_free_pages (startp req : Nat) (l : List Region) :
    Nat × List Region :=
  match adp_go startp req l with
  | some res => res
  | none => (0, l)

/-- The loop of merged_consecutive_pages, structurally recursive on a
fuel argument; every iteration shortens the list by one record, so a
fuel equal to the list length always suffices (mcp_go_fuel below). -/
def mcp_go : Nat → List Region → List Region
  | 0, l => l
  | _ + 1, [] => []
  | _ + 1, [r] => [r]
  | fuel + 1, a :: b :: rest =>
    if a.start_page + a.pages = b.start_page then
      mcp_go fuel (⟨a.start_page, a.pages + b.pages⟩ :: rest)
    else
      a :: mcp_go fuel (b :: rest)

/-- merged_consecutive_pages of src/linear-malloc.c: one pass over the
free list merging every pair of consecutive records where the first
ends exactly at the second's start (staying on the merged record, as
the C loop does by resetting current_item to prev_item's next). -/
def merged_consecutive_pages (l : List Region) : List Region :=
  mcp_go l.length l

/-- restore_freed_region of src/linear-malloc.c: insert one deferred
record into the free list at its sorted position. The scan stops at the
first region whose start exceeds the record's start; the record is
either merged into the preceding region (then a full merge pass runs),
merged into that region by rewriting it at the lower start (then a full
merge pass runs), linked as a standalone record, or appended at the
tail (then a full merge pass runs). -/
def restore_freed_region (fr : Region) (l : List Region) : List Region :=
  let before := l.takeWhile (fun r => !(fr.start_page < r.start_page))
  let after := l.dropWhile (fun r => !(fr.start_page < r.start_page))
  match after with
  | [] => merged_consecutive_pages (l ++ [fr])
  | region :: rest =>
    match before.getLast? with
    | some prev =>
      if prev.start_page + prev.pages = fr.start_page then
        merged_consecutive_pages
          (before.dropLast ++ ⟨prev.start_page, prev.pages + fr.pages⟩ :: after)
      else if fr.start_page + fr.pages = region.start_page then
        merged_consecutive_pages
          (before ++ ⟨fr.start_page, region.pages + fr.pages⟩ :: rest)
      else
        before ++ fr :: after
    | none =>
      if fr.start_page + fr.pages = region.start_page then
        merged_consecutive_pages (⟨fr.start_page, region.pages + fr.pages⟩ :: rest)
      else
        fr :: after

/-- restore_all_freed_memories of src/linear-malloc.c: drain the
deferred list in FIFO order into the free list, then reset it. -/
def restore_all_freed_memories (s : LMState) : LMState :=
  { free := s.freed.foldl (fun l fr => restore_freed_region fr l) s.free,
    freed := [],
    meta := s.meta }

/-- The static helper alloc of src/linear-malloc.c: direction dispatch. -/
def lm_alloc (pages t : Nat) (l : List Region) : Nat × List Region :=
  if t = FM_LM_T_TRANSIENT then alloc_free_pages pages l
  else alloc_free_pages_reverse pages l

/-- fm_lm_malloc of src/linear-malloc.c. Returns the first page of the
allocated run (page_to_ptr is the identity on page numbers here), or
none for NULL. -/
def fm_lm_malloc (size t : Nat) (s : LMState) : Option Nat × LMState :=
  let size' := fm_roundup size FM_PAGE_SIZE
  let pages := size' / FM_PAGE_SIZE
  let (page, fl) := lm_alloc pages t s.free
  if page = 0 then
    let s' := restore_all_freed_memories s
    let (page2, fl2) := lm_alloc pages t s'.free
    if page2 = 0 then (none, s')
    else (some page2,
      { free := fl2, freed := s'.freed,
        meta := mark_alloced_pages s'.meta page2 pages })
  else
    (some page,
      { free := fl, freed := s.freed,
        meta := mark_alloced_pages s.meta page pages })

/-- fm_lm_realloc of src/linear-malloc.c. The memcpy of the payload is
not modelled (payload bytes are outside the state); the free of the old
run on a successful move is. -/
def fm_lm_realloc (ptr : Option Nat) (size t : Nat) (s : LMState) :
    Option Nat × LMState :=
  match ptr with
  | none => fm_lm_malloc size t s
  | some first_page =>
    let size' := fm_roundup size FM_PAGE_SIZE
    let new_pages := size' / FM_PAGE_SIZE
    let pages := fetch_alloced_pages s.meta first_page
    if new_pages ≤ pages then (some first_page, s)
    else
      let (succ, fl) :=
        alloc_designated_free_pages (first_page + pages) (new_pages - pages)
          s.free
      if succ ≠ 0 then (some first_page, { s with free := fl })
      else
        let (p, s') := fm_lm_malloc size' t s
        match p with
        | none => (none, s')
        | some newpage => (some newpage, fm_lm_free first_page s')

/-! ## Trace-level execution states

The claims about reachable allocator states need the set of live
allocations as ghost bookkeeping: the C type system does not record
which pointers are live, and free/realloc may only be called on live
pointers. An AllocState pairs the concrete LMState with that ghost
data. -/

instance : Inhabited Region := ⟨⟨0, 0⟩⟩

/-- A linear-allocator state together with the ghost list of live
allocations (first page and page count of every run handed out and not
yet freed) and the total page count of the buffer. -/
structure AllocState where
  lm : LMState
  live : List Region
  total : Nat
deriving DecidableEq

/-- Effect of one fm_lm_malloc call on an AllocState. -/
def malloc_step (size t : Nat) (s : AllocState) : AllocState :=
  let res := fm_lm_malloc size t s.lm
  { lm := res.2,
    live :=
      match res.1 with
      | some p => ⟨p, fm_roundup size FM_PAGE_SIZE / FM_PAGE_SIZE⟩ :: s.live
      | none => s.live,
    total := s.total }

/-- Effect of one fm_lm_free call (on the live allocation a) on an
AllocState. -/
def free_step (a : Region) (s : AllocState) : AllocState :=
  { lm := fm_lm_free a.start_page s.lm,
    live := s.live.erase a,
    total := s.total }

/-- Ghost live-list update of one fm_lm_realloc call on the live
allocation a, mirroring the branch structure of fm_lm_realloc: on an
in-place extension the run now reaches new_pages pages from the same
first page; on a successful move the old run is freed and the new one
is live; otherwise the live set is unchanged. -/
def realloc_live_update (a : Region) (size t : Nat) (s : AllocState) :
    List Region :=
  let new_pages := fm_roundup size FM_PAGE_SIZE / FM_PAGE_SIZE
  let k := fetch_alloced_pages s.lm.meta a.start_page
  if new_pages ≤ k then s.live
  else if (alloc_designated_free_pages (a.start_page + k) (new_pages - k)
      s.lm.free).1 ≠ 0 then
    ⟨a.start_page, new_pages⟩ :: s.live.erase a
  else
    match (fm_lm_malloc (fm_roundup size FM_PAGE_SIZE) t s.lm).1 with
    | some p => ⟨p, new_pages⟩ :: s.live.erase a
    | none => s.live

/-- Effect of one fm_lm_realloc call (on the live allocation a) on an
AllocState. -/
def realloc_step (a : Region) (size t : Nat) (s : AllocState) : AllocState :=
  { lm := (fm_lm_realloc (some a.start_page) size t s.lm).2,
    live := realloc_live_update a size t s,
    total := s.total }

/-- Reachability of an allocator state through the linear API, starting
from a successful fm_lm_reinit. free and realloc may only be applied to
live allocations (realloc on NULL is fm_lm_malloc, Claim C9, so it is
covered by the malloc step). The parameter minp bounds the page count
of every malloc request from below: ReachLM 0 is plain reachability,
ReachLM 1 is reachability through traces whose malloc requests all
round up to at least one page. -/
inductive ReachLM (minp : Nat) : AllocState → Prop where
  | init (buffer size : Nat) (st : LMState) :
      fm_lm_reinit buffer size = some st →
      ReachLM minp ⟨st, [], size / FM_PAGE_SIZE⟩
  | step_malloc (s : AllocState) (size t : Nat) :
      ReachLM minp s →
      (t = FM_LM_T_TRANSIENT ∨ t = FM_LM_T_PERSISTENT) →
      minp ≤ fm_roundup size FM_PAGE_SIZE / FM_PAGE_SIZE →
      ReachLM minp (malloc_step size t s)
  | step_free (s : AllocState) (a : Region) :
      ReachLM minp s → a ∈ s.live →
      ReachLM minp (free_step a s)
  | step_realloc (s : AllocState) (a : Region) (size t : Nat) :
      ReachLM minp s → a ∈ s.live →
      (t = FM_LM_T_TRANSIENT ∨ t = FM_LM_T_PERSISTENT) →
      ReachLM minp (realloc_step a size t s)

/-- The free-list shape asserted by the specification: strictly
ascending start pages, and no record ends exactly where the next
begins. -/
def StrictAscendingNonTouching (l : List Region) : Prop :=
  l.Chain' (fun a b =>
    a.start_page < b.start_page ∧ a.start_page + a.pages ≠ b.start_page)

/-- Kernel-reducible decision procedure for StrictAscendingNonTouching
(the general Chain' instance of the library is not reducible by the
kernel). -/
def santDec : (l : List Region) → Decidable (StrictAscendingNonTouching l)
  | [] => isTrue List.chain'_nil
  | [r] => isTrue (List.chain'_singleton r)
  | a :: b :: rest =>
    match santDec (b :: rest) with
    | isTrue h =>
      if hab : a.start_page < b.start_page ∧
          a.start_page + a.pages ≠ b.start_page then
        isTrue (List.chain'_cons.mpr ⟨hab, h⟩)
      else isFalse (fun hc => hab (List.chain'_cons.mp hc).1)
    | isFalse h => isFalse (fun hc => h (List.chain'_cons.mp hc).2)

instance (l : List Region) : Decidable (StrictAscendingNonTouching l) :=
  santDec l

/-! ## The slab allocator, src/slab-malloc.c

The buffer is modelled as starting at address 0, so the byte address of
page p is p * 4096 and the C alignment tests on pointers are mod-4096
tests on addresses. Payload bytes are not part of the state, so the
memcpy in fm_sm_realloc has no model; everything else (bitmaps, class
lists, the page registry, the linear state) is. Operations return none
where the C would dereference a page that is not a live slab page
(undefined behaviour). -/

/-- slab_sizes of src/slab-malloc.c. -/
def slab_sizes : List Nat := [32, 64, 128, 512, 1024]

/-- The scan loop of slab_index. -/
def slab_index_go (size i : Nat) : List Nat → Option Nat
  | [] => none
  | c :: rest => if size ≤ c then some i else slab_index_go size (i + 1) rest

/-- slab_index of src/slab-malloc.c; none is FM_SM_INVALID_SLAB. -/
def slab_index (size : Nat) : Option Nat := slab_index_go size 0 slab_sizes

/-- PAGE_META_RESERVED_SIZE of src/slab-malloc.c. -/
def PAGE_META_RESERVED_SIZE : Nat := 64

/-- struct page_meta_t of src/slab-malloc.c; the page field records
which page of the buffer holds this header (the C stores the struct at
the page's first byte), the link field is represented by membership of
that page number in the class lists. -/
structure page_meta_t where
  page : Nat
  bitmap0 : Nat
  bitmap1 : Nat
  size : Nat
  count : Nat
  slab_index : Nat
deriving DecidableEq

/-- 64-bit population count (__builtin_popcountl), fuel-indexed. -/
def popcount_go : Nat → Nat → Nat
  | 0, _ => 0
  | fuel + 1, n => n % 2 + popcount_go fuel (n / 2)

/-- __builtin_popcountl on a 64-bit word. -/
def popcountl (n : Nat) : Nat := popcount_go 64 n

/-- 64-bit count of trailing zeros (__builtin_ctzl on a nonzero word),
fuel-indexed. -/
def ctz_go : Nat → Nat → Nat
  | 0, _ => 0
  | fuel + 1, n => if n % 2 = 1 then 0 else 1 + ctz_go fuel (n / 2)

/-- __builtin_ctzl on a nonzero 64-bit word. -/
def ctzl (n : Nat) : Nat := ctz_go 64 n

/-- bitmap_all_cleared of src/slab-malloc.c. -/
def bitmap_all_cleared (m : page_meta_t) : Bool :=
  m.bitmap0 == 0 && m.bitmap1 == 0

/-- bitmap_all_used of src/slab-malloc.c. -/
def bitmap_all_used (m : page_meta_t) : Bool :=
  popcountl m.bitmap0 + popcountl m.bitmap1 == m.count

/-- bitmap_next_free of src/slab-malloc.c; none is FM_SM_INVALID_SLAB
(also reached through the initial 0xFFFFFFFF value of zeros, which is
never below count). The C complement ~w on a 64-bit word w is
2^64 - 1 - w. -/
def bitmap_next_free (m : page_meta_t) : Option Nat :=
  let zeros : Option Nat :=
    if m.bitmap0 ≠ 2 ^ 64 - 1 then some (ctzl (2 ^ 64 - 1 - m.bitmap0))
    else if m.bitmap1 ≠ 2 ^ 64 - 1 then some (64 + ctzl (2 ^ 64 - 1 - m.bitmap1))
    else none
  match zeros with
  | some z => if m.count ≤ z then none else some z
  | none => none

/-- bitmap_set of src/slab-malloc.c. Index arithmetic follows the C:
word index / 64 (0 for the first word, anything else lands in the
second word; call sites only produce indices below count ≤ 126). -/
def bitmap_set (m : page_meta_t) (index : Nat) : page_meta_t :=
  if index / 64 = 0 then { m with bitmap0 := m.bitmap0 ||| 2 ^ (index % 64) }
  else { m with bitmap1 := m.bitmap1 ||| 2 ^ (index % 64) }

/-- bitmap_clear of src/slab-malloc.c; ~(1 << k) on a 64-bit word is
the all-ones word with bit k flipped off. -/
def bitmap_clear (m : page_meta_t) (index : Nat) : page_meta_t :=
  if index / 64 = 0 then
    { m with bitmap0 := m.bitmap0 &&& ((2 ^ 64 - 1) ^^^ 2 ^ (index % 64)) }
  else
    { m with bitmap1 := m.bitmap1 &&& ((2 ^ 64 - 1) ^^^ 2 ^ (index % 64)) }

/-- The whole mutable state of the slab allocator: the linear state it
is layered on, the registry of live slab pages (the page_meta_t structs
stored in the pages themselves), and the five class lists (page numbers
in link order, slab_lists of src/slab-malloc.c). -/
structure SMState where
  lm : LMState
  spages : List page_meta_t
  lists : List (List Nat)
deriving DecidableEq

/-- Look up the slab-page header stored in page pn. -/
def find_slab (ps : List page_meta_t) (pn : Nat) : Option page_meta_t :=
  ps.find? (fun m => m.page == pn)

/-- In-place mutation of the header stored in page m.page. -/
def update_slab (ps : List page_meta_t) (m : page_meta_t) :
    List page_meta_t :=
  ps.map (fun x => if x.page = m.page then m else x)

/-- Removal of the header stored in page pn (the page stops being a
slab page). -/
def remove_slab (ps : List page_meta_t) (pn : Nat) : List page_meta_t :=
  ps.eraseP (fun m => m.page == pn)

/-- The class list of index i. -/
def lists_get (s : SMState) (i : Nat) : List Nat := s.lists.getD i []

/-- Replace the class list of index i. -/
def lists_set (ls : List (List Nat)) (i : Nat) (l : List Nat) :
    List (List Nat) := ls.set i l

/-- fm_sm_reinit of src/slab-malloc.c: linear reinit, then empty class
lists (and hence no live slab pages). -/
def fm_sm_reinit (buffer size : Nat) : Option SMState :=
  (fm_lm_reinit buffer size).map
    (fun lm => ⟨lm, [], [[], [], [], [], []]⟩)

/-- The inner loop of free_empty_slabs over one class list: every page
whose bitmap is entirely cleared is unlinked and returned to the linear
allocator; the iteration captures the next node before the body, so
removal is safe. Returns the surviving class list, the surviving
registry, and the linear state. A listed page with no live header
(impossible in well-formed states) is kept untouched. -/
def fes_class (ps : List page_meta_t) (lm : LMState) :
    List Nat → List Nat × List page_meta_t × LMState
  | [] => ([], ps, lm)
  | pn :: rest =>
    match find_slab ps pn with
    | some m =>
      if bitmap_all_cleared m then
        fes_class (remove_slab ps pn) (fm_lm_free pn lm) rest
      else
        let res := fes_class ps lm rest
        (pn :: res.1, res.2.1, res.2.2)
    | none =>
      let res := fes_class ps lm rest
      (pn :: res.1, res.2.1, res.2.2)

/-- One class-list pass of free_empty_slabs. -/
def fes_classes (s : SMState) (i : Nat) : SMState :=
  let r := fes_class s.spages s.lm (lists_get s i)
  { lm := r.2.2, spages := r.2.1, lists := lists_set s.lists i r.1 }

/-- free_empty_slabs of src/slab-malloc.c: all five classes in order. -/
def free_empty_slabs (s : SMState) : SMState :=
  (List.range 5).foldl fes_classes s

/-- The static lm_malloc wrapper of src/slab-malloc.c: retry a failed
linear allocation once after freeing the empty slabs. Returns a page
number. -/
def lm_malloc (size t : Nat) (s : SMState) : Option Nat × SMState :=
  let r := fm_lm_malloc size t s.lm
  match r.1 with
  | some p => (some p, { s with lm := r.2 })
  | none =>
    let s1 := free_empty_slabs { s with lm := r.2 }
    let r2 := fm_lm_malloc size t s1.lm
    (r2.1, { s1 with lm := r2.2 })

/-- index_to_ptr of src/slab-malloc.c (the buffer starts at address 0). -/
def index_to_ptr (m : page_meta_t) (index : Nat) : Nat :=
  m.page * FM_PAGE_SIZE + PAGE_META_RESERVED_SIZE + index * m.size

/-- ptr_to_index of src/slab-malloc.c (non-guard build: no checks). -/
def ptr_to_index (m : page_meta_t) (ptr : Nat) : Nat :=
  (ptr - (m.page * FM_PAGE_SIZE + PAGE_META_RESERVED_SIZE)) / m.size

/-- The class-list walk of fm_sm_malloc: first page with a free cell;
set its bit, unlink the page when it becomes full, return the cell. -/
def sm_walk (i : Nat) (s : SMState) : List Nat → Option (Nat × SMState)
  | [] => none
  | pn :: rest =>
    match find_slab s.spages pn with
    | some m =>
      match bitmap_next_free m with
      | some index =>
        let m' := bitmap_set m index
        let s' : SMState := { s with spages := update_slab s.spages m' }
        let s'' :=
          if bitmap_all_used m' then
            { s' with lists := lists_set s'.lists i ((lists_get s' i).erase pn) }
          else s'
        some (index_to_ptr m index, s'')
      | none => sm_walk i s rest
    | none => sm_walk i s rest

/-- fm_sm_malloc of src/slab-malloc.c. Returns a byte address (cells
are offset inside their page; oversized requests return page
addresses). -/
def fm_sm_malloc (size : Nat) (s : SMState) : Option Nat × SMState :=
  match slab_index size with
  | none =>
    let r := lm_malloc size FM_LM_T_TRANSIENT s
    (r.1.map (fun p => p * FM_PAGE_SIZE), r.2)
  | some i =>
    match sm_walk i s (lists_get s i) with
    | some res => (some res.1, res.2)
    | none =>
      let r := fm_lm_malloc FM_PAGE_SIZE FM_LM_T_PERSISTENT s.lm
      match r.1 with
      | none => (none, { s with lm := r.2 })
      | some page =>
        let m0 : page_meta_t :=
          { page := page, bitmap0 := 0, bitmap1 := 0,
            size := slab_sizes.getD i 0,
            count := (FM_PAGE_SIZE - PAGE_META_RESERVED_SIZE) /
              slab_sizes.getD i 0,
            slab_index := i }
        let m := bitmap_set m0 0
        (some (index_to_ptr m 0),
         { lm := r.2, spages := m :: s.spages,
           lists := lists_set s.lists i (page :: lists_get s i) })

/-- fm_sm_free of src/slab-malloc.c. A page-aligned pointer is a linear
allocation; otherwise the containing slab page is the address rounded
down. none models the undefined dereference of a page that is not a
live slab page. -/
def fm_sm_free (ptr : Nat) (s : SMState) : Option SMState :=
  if ptr &&& (FM_PAGE_SIZE - 1) = 0 then
    some { s with lm := fm_lm_free (ptr / FM_PAGE_SIZE) s.lm }
  else
    match find_slab s.spages (ptr / FM_PAGE_SIZE) with
    | none => none
    | some m =>
      let element_index := ptr_to_index m ptr
      let all_used := bitmap_all_used m
      let m' := bitmap_clear m element_index
      let s' : SMState := { s with spages := update_slab s.spages m' }
      some (if all_used then
          { s' with lists :=
              lists_set s'.lists m.slab_index (lists_get s' m.slab_index ++ [ptr / FM_PAGE_SIZE]) }
        else s')

/-- fm_sm_realloc of src/slab-malloc.c. The memcpy of the old cell's
payload into the new allocation is outside the modelled state. -/
def fm_sm_realloc (ptr size : Nat) (s : SMState) :
    Option (Option Nat × SMState) :=
  if ptr &&& (FM_PAGE_SIZE - 1) = 0 then
    let lptr : Option Nat := if ptr = 0 then none else some (ptr / FM_PAGE_SIZE)
    let r := fm_lm_realloc lptr size FM_LM_T_TRANSIENT s.lm
    some (r.1.map (fun p => p * FM_PAGE_SIZE), { s with lm := r.2 })
  else
    match find_slab s.spages (ptr / FM_PAGE_SIZE) with
    | none => none
    | some m =>
      if size ≤ m.size then some (some ptr, s)
      else
        let r := fm_sm_malloc size s
        match r.1 with
        | none => some (none, r.2)
        | some newptr => (fm_sm_free ptr r.2).map (fun s' => (some newptr, s'))

/-! ## Concrete scenario states

States arising from a freshly reinitialized 128 KiB buffer (32 pages,
pages 1 to 31 usable), used by the end-to-end claims and as witnesses. -/

/-- The linear state installed by fm_lm_reinit on a 128 KiB buffer. -/
def lm32_init : LMState := ⟨[⟨1, 31⟩], [], []⟩

/-- After p1 = lm_malloc(4096, TRANSIENT) (page 1). -/
def lm32_p1 : LMState := (fm_lm_malloc 4096 FM_LM_T_TRANSIENT lm32_init).2

/-- After p2 = lm_malloc(4096, PERSISTENT) (page 31). -/
def lm32_p2 : LMState := (fm_lm_malloc 4096 FM_LM_T_PERSISTENT lm32_p1).2

/-- After lm_free(p1); lm_free(p2). -/
def lm32_f2 : LMState := fm_lm_free 31 (fm_lm_free 1 lm32_p2)

/-- The final malloc of scenario S2: q = lm_malloc(8192, TRANSIENT). -/
def lm32_q : Option Nat × LMState := fm_lm_malloc 8192 FM_LM_T_TRANSIENT lm32_f2

/-- In-place extension: lm_realloc(p1, 8192, TRANSIENT) right after p1
was allocated. -/
def lm32_r : Option Nat × LMState :=
  fm_lm_realloc (some 1) 8192 FM_LM_T_TRANSIENT lm32_p1

/-- After allocating all 31 usable pages in one run. -/
def lm32_exhaust : LMState :=
  (fm_lm_malloc (31 * 4096) FM_LM_T_TRANSIENT lm32_init).2

/-- After freeing that run (page 1, 31 pages, into the deferred list). -/
def lm32_exfree : LMState := fm_lm_free 1 lm32_exhaust

/-- A malloc of 32 pages that fails even after the drain. -/
def lm32_fail : Option Nat × LMState :=
  fm_lm_malloc (32 * 4096) FM_LM_T_TRANSIENT lm32_exfree

/-- Reinit state of the 128 KiB buffer at trace level. -/
def c1_s0 : AllocState := ⟨lm32_init, [], 32⟩

/-- After p = lm_malloc(0, TRANSIENT): page 1 is returned, zero pages
recorded, the free list untouched. -/
def c1_s1 : AllocState := ⟨⟨[⟨1, 31⟩], [], [(1, 0)]⟩, [⟨1, 0⟩], 32⟩

/-- After lm_free(p): a zero-page record enters the deferred list. -/
def c1_s2 : AllocState := ⟨⟨[⟨1, 31⟩], [⟨1, 0⟩], [(1, 0)]⟩, [], 32⟩

/-- Slab state with one empty (all cells free) class-0 slab page at
page 31, the linear allocator exhausted: reachable by sm_malloc(32),
sm_free of that cell, then a 30-page linear allocation. -/
def sm_c6 : SMState :=
  ⟨⟨[], [], [(1, 30), (31, 1)]⟩, [⟨31, 0, 0, 32, 126, 0⟩],
    [[31], [], [], [], []]⟩

/-- Slab state with one class-0 slab page at page 31 whose cell 0 is
allocated, the linear allocator exhausted. -/
def sm_c10 : SMState :=
  ⟨⟨[], [], [(1, 30), (31, 1)]⟩, [⟨31, 1, 0, 32, 126, 0⟩],
    [[31], [], [], [], []]⟩

/-! ## Well-formedness of reachable allocator states

The invariants below hold in every state reached through the linear API
with positive-size requests, and are what makes the deferred-free drain
produce a sorted, coalesced free list. Regions are compared as
half-open page intervals. -/

/-- a lies strictly below b with a gap (no touching). -/
def rlt (a b : Region) : Prop := a.stop < b.start_page

/-- a lies below b, possibly touching it. -/
def rle (a b : Region) : Prop := a.stop ≤ b.start_page

/-- Disjointness of two regions as page intervals. -/
def rdisj (a b : Region) : Prop :=
  a.stop ≤ b.start_page ∨ b.stop ≤ a.start_page

/-- Region r contains page p. -/
def Region.covers (r : Region) (p : Nat) : Prop :=
  r.start_page ≤ p ∧ p < r.stop

/-- Some region of l contains page p. -/
def coversL (l : List Region) (p : Nat) : Prop := ∃ r ∈ l, r.covers p

/-- Well-formedness of a trace-level allocator state: the free list is
a sorted chain of separated (non-touching) nonempty regions inside the
buffer; deferred records and live runs are nonempty, inside the buffer,
and mutually disjoint; and the metadata at every live run's first page
decodes to a length between 1 and the run's length, with the extended
encoding (byte 255 plus a 32-bit length) reading only bytes that lie
inside the run itself. -/
structure LMWF (s : AllocState) : Prop where
  total_lo : 32 ≤ s.total
  total_hi : s.total ≤ 4095
  free_chain : s.lm.free.Chain' rlt
  free_pos : ∀ r ∈ s.lm.free, 1 ≤ r.pages
  free_lo : ∀ r ∈ s.lm.free, 1 ≤ r.start_page
  free_hi : ∀ r ∈ s.lm.free, r.stop ≤ s.total
  freed_pos : ∀ r ∈ s.lm.freed, 1 ≤ r.pages
  freed_lo : ∀ r ∈ s.lm.freed, 1 ≤ r.start_page
  freed_hi : ∀ r ∈ s.lm.freed, r.stop ≤ s.total
  live_pos : ∀ r ∈ s.live, 1 ≤ r.pages
  live_lo : ∀ r ∈ s.live, 1 ≤ r.start_page
  live_hi : ∀ r ∈ s.live, r.stop ≤ s.total
  freed_pw : s.lm.freed.Pairwise rdisj
  live_pw : s.live.Pairwise rdisj
  free_freed : ∀ r ∈ s.lm.free, ∀ f ∈ s.lm.freed, rdisj r f
  free_live : ∀ r ∈ s.lm.free, ∀ a ∈ s.live, rdisj r a
  freed_live : ∀ f ∈ s.lm.freed, ∀ a ∈ s.live, rdisj f a
  meta_lo : ∀ a ∈ s.live, 1 ≤ fetch_alloced_pages s.lm.meta a.start_page
  meta_le : ∀ a ∈ s.live,
    fetch_alloced_pages s.lm.meta a.start_page ≤ a.pages
  meta_ext : ∀ a ∈ s.live, 255 ≤ mget s.lm.meta a.start_page →
    fm_roundup (a.start_page + 1) 4 + 4 ≤ a.stop

instance : IsTrans Region rlt :=
  ⟨fun a b c hab hbc => by
    unfold rlt Region.stop at *
    omega⟩

instance : IsTrans Region rle :=
  ⟨fun a b c hab hbc => by
    unfold rle Region.stop at *
    omega⟩

/-! ## Claim theorems -/

/-- Claim C9: for every size and direction, fm_lm_realloc on a NULL
pointer is exactly fm_lm_malloc, in result and in resulting state. -/
theorem C9_realloc_null_is_malloc (size t : Nat) (s : LMState) :
    fm_lm_realloc none size t s = fm_lm_malloc size t s := rfl

/-- Claim C4, counterexample: a page-aligned size of exactly 16 MiB
lies inside the range [128 KiB, 4 GiB) named by the claim, so the claim
says fm_lm_reinit accepts it, but the code aborts (the source checks
size < 16 MiB, not size < 4 GiB). -/
theorem C4_counterexample :
    fm_lm_reinit 0 16777216 = none ∧
    0 % 4096 = 0 ∧ 16777216 % 4096 = 0 ∧
    131072 ≤ 16777216 ∧ (16777216 : Nat) < 4294967296 := by
  refine ⟨?_, by norm_num, by norm_num, by norm_num, by norm_num⟩
  decide

/-- Claim C4 (amended): fm_lm_reinit aborts if and only if the buffer
address is not 4096-byte aligned, the size is not 4096-byte aligned, or
the size lies outside [128 KiB, 16 MiB); on every aligned input inside
that range it succeeds (returns 0), installing the single free region
of pages 1 to size/4096 - 1 over a zeroed metadata page and an empty
deferred list. -/
theorem C4_reinit_abort_iff (buffer size : Nat) :
    (fm_lm_reinit buffer size = none ↔
      buffer % 4096 ≠ 0 ∨ size % 4096 ≠ 0 ∨
        size < 131072 ∨ 16777216 ≤ size) ∧
    (fm_lm_reinit buffer size ≠ none →
      fm_lm_reinit buffer size =
        some ⟨[⟨1, size / 4096 - 1⟩], [], []⟩) := by
  have h4095 : (4095 : Nat) = 2 ^ 12 - 1 := by norm_num
  have hb : buffer &&& (FM_PAGE_SIZE - 1) = buffer % 4096 := by
    show buffer &&& 4095 = _
    rw [h4095, Nat.and_pow_two_sub_one_eq_mod]
  have hs : size &&& (FM_PAGE_SIZE - 1) = size % 4096 := by
    show size &&& 4095 = _
    rw [h4095, Nat.and_pow_two_sub_one_eq_mod]
  unfold fm_lm_reinit
  rw [hb, hs]
  constructor
  · split_ifs with h1 h2 h3 <;> simp_all
  · split_ifs with h1 h2 h3 <;> simp_all
    show size / FM_PAGE_SIZE - 1 = size / 4096 - 1
    rfl

/-- Claim C3, counterexample: in the S2 trace the premises hold (p1 is
page 1, p2 is page 31), but q = lm_malloc(8192, TRANSIENT) is served
directly from the free region of pages 2 to 30 by the first scan, so no
drain happens: q is page 2 (not page 1), the free list becomes the
single record of 27 pages from page 4 (not 29 pages from page 3), and
both deferred records are still pending. -/
theorem C3_counterexample :
    fm_lm_reinit 0 131072 = some lm32_init ∧
    (fm_lm_malloc 4096 FM_LM_T_TRANSIENT lm32_init).1 = some 1 ∧
    (fm_lm_malloc 4096 FM_LM_T_PERSISTENT lm32_p1).1 = some 31 ∧
    lm32_q.1 = some 2 ∧
    lm32_q.1 ≠ some 1 ∧
    lm32_q.2.free ≠ [⟨3, 29⟩] ∧
    lm32_q.2.freed ≠ [] := by
  decide

/-- Claim C3 (amended): continuing S1 with lm_free(p1); lm_free(p2);
q = lm_malloc(8192, TRANSIENT): the first-fit scan succeeds on the free
record of pages 2 to 30, so the deferred list is not drained; q is at
page 2, the free list becomes the single record of 27 pages starting at
page 4, and the deferred list still holds the records for page 1 and
page 31. -/
theorem C3_s2_trace :
    lm32_q.1 = some 2 ∧
    lm32_q.2.free = [⟨4, 27⟩] ∧
    lm32_q.2.freed = [⟨1, 1⟩, ⟨31, 1⟩] ∧
    fetch_alloced_pages lm32_q.2.meta 2 = 2 := by
  decide

/-- Claim C2, code bug: after the reinit of a 128 KiB buffer and
p1 = lm_malloc(4096, TRANSIENT) at page 1, the call
lm_realloc(p1, 8192, TRANSIENT) extends the run in place (it consumes
the one-page prefix of the free region starting at page 2, returning p1
itself and shrinking the free list to pages 3 to 31), yet the metadata
at page 1 still records 1 page instead of 2: fm_lm_realloc's in-place
path never calls mark_alloced_pages. Freeing p1 afterwards therefore
returns only page 1 to the allocator: after the next drain the free
list holds pages 1 and 3 to 31, and page 2 has leaked out of every
set. -/
theorem C2_inplace_extension_stale_metadata :
    lm32_r.1 = some 1 ∧
    lm32_r.2.free = [⟨3, 29⟩] ∧
    fetch_alloced_pages lm32_r.2.meta 1 = 1 ∧
    (1 : Nat) ≠ 2 ∧
    (restore_all_freed_memories (fm_lm_free 1 lm32_r.2)).free =
      [⟨1, 1⟩, ⟨3, 29⟩] := by
  decide

/-- Claim C5, counterexample: allocate all 31 usable pages, free the
run, then request 32 pages. The malloc returns NULL, but the allocator
state is not as before the call: the deferred record for pages 1 to 31
has been drained into the free list. -/
theorem C5_counterexample :
    lm32_fail.1 = none ∧
    lm32_exfree.freed = [⟨1, 31⟩] ∧ lm32_exfree.free = [] ∧
    lm32_fail.2.freed = [] ∧ lm32_fail.2.free = [⟨1, 31⟩] ∧
    lm32_fail.2 ≠ lm32_exfree := by
  decide

/-- Claim C5 (amended): when fm_lm_malloc returns NULL the resulting
state is exactly the prior state with the deferred-free list drained
into the free list (the failure path runs restore_all_freed_memories
before the retry and does not roll it back); in particular the
metadata page is untouched, the deferred list is left empty, and when
the deferred list was already empty the state is fully unchanged. -/
theorem C5_failed_malloc_drains (size t : Nat) (s : LMState)
    (h : (fm_lm_malloc size t s).1 = none) :
    (fm_lm_malloc size t s).2 = restore_all_freed_memories s ∧
    (fm_lm_malloc size t s).2.meta = s.meta ∧
    (fm_lm_malloc size t s).2.freed = [] ∧
    (s.freed = [] → (fm_lm_malloc size t s).2 = s) := by
  rcases hall : lm_alloc (fm_roundup size FM_PAGE_SIZE / FM_PAGE_SIZE) t
    s.free with ⟨page, fl⟩
  rcases hall2 : lm_alloc (fm_roundup size FM_PAGE_SIZE / FM_PAGE_SIZE) t
    (restore_all_freed_memories s).free with ⟨page2, fl2⟩
  simp only [fm_lm_malloc, hall, hall2] at h ⊢
  by_cases hp : page = 0
  · subst hp
    simp only [if_pos rfl] at h ⊢
    by_cases hp2 : page2 = 0
    · subst hp2
      simp only [if_pos rfl] at h ⊢
      refine ⟨rfl, rfl, rfl, fun hfr => ?_⟩
      cases s with
      | mk f fr m =>
        simp only at hfr
        subst hfr
        rfl
    · simp [hp2] at h
  · simp [hp] at h

/-- Witness for C5_failed_malloc_drains at a concrete failing input. -/
theorem C5_failed_malloc_drains_witness :
    (fm_lm_malloc 131072 FM_LM_T_TRANSIENT lm32_exfree).2 =
        restore_all_freed_memories lm32_exfree ∧
      (fm_lm_malloc 131072 FM_LM_T_TRANSIENT lm32_exfree).2.meta =
        lm32_exfree.meta ∧
      (fm_lm_malloc 131072 FM_LM_T_TRANSIENT lm32_exfree).2.freed = [] ∧
      (lm32_exfree.freed = [] →
        (fm_lm_malloc 131072 FM_LM_T_TRANSIENT lm32_exfree).2 =
          lm32_exfree) :=
  C5_failed_malloc_drains 131072 FM_LM_T_TRANSIENT lm32_exfree (by decide)

/-- Claim C1, counterexample: the state after reinit of a 128 KiB
buffer, p = lm_malloc(0, TRANSIENT) (which returns page 1 without
removing anything from the free list, Claim C8) and lm_free(p) is
reachable, its deferred list holds the zero-page record for page 1, and
draining it appends that record after the region of pages 1 to 31: the
resulting free list has two records with equal start page 1, so it is
not strictly ascending. -/
theorem C1_counterexample :
    ReachLM 0 c1_s2 ∧
    ¬ StrictAscendingNonTouching (restore_all_freed_memories c1_s2.lm).free := by
  constructor
  · have h0 : ReachLM 0 c1_s0 := by
      have h := @ReachLM.init 0 0 131072 lm32_init (by decide)
      have e : (131072 : Nat) / FM_PAGE_SIZE = 32 := by decide
      rw [e] at h
      exact h
    have h1 : ReachLM 0 c1_s1 := by
      have h := ReachLM.step_malloc c1_s0 0 FM_LM_T_TRANSIENT h0 (Or.inl rfl)
        (Nat.zero_le _)
      have e : malloc_step 0 FM_LM_T_TRANSIENT c1_s0 = c1_s1 := by decide
      rwa [e] at h
    have h2 := ReachLM.step_free c1_s1 ⟨1, 0⟩ h1 (by decide)
    have e2 : free_step ⟨1, 0⟩ c1_s1 = c1_s2 := by decide
    rwa [e2] at h2
  · decide

/-- Bitmask identity used by the page-size computations. -/
theorem and_4095_eq_mod (x : Nat) : x &&& 4095 = x % 4096 := by
  have h : (4095 : Nat) = 2 ^ 12 - 1 := by norm_num
  have h2 : (4096 : Nat) = 2 ^ 12 := by norm_num
  rw [h, h2, Nat.and_pow_two_sub_one_eq_mod]

/-- On inputs below 2^64, __fm_roundup by 4096 is ordinary rounding up
to a multiple of 4096, reduced mod 2^64. -/
theorem fm_roundup_4096 (x : Nat) (hx : x < 2 ^ 64) :
    fm_roundup x 4096 = (4096 * ((x + 4095) / 4096)) % 2 ^ 64 := by
  unfold fm_roundup
  rw [show (4096 - 1 : Nat) = 4095 from rfl, and_4095_eq_mod]
  omega

/-- The rounded-up page count never exceeds k when the byte size is at
most k pages. -/
theorem fm_roundup_div_le (size k : Nat) (h : size ≤ k * 4096) :
    fm_roundup size 4096 / 4096 ≤ k := by
  by_cases hk : k < 2 ^ 52
  · have hx : size < 2 ^ 64 := by omega
    rw [fm_roundup_4096 size hx]
    have h1 : (size + 4095) / 4096 ≤ k := by omega
    have h2 : 4096 * ((size + 4095) / 4096) < 2 ^ 64 := by omega
    rw [Nat.mod_eq_of_lt h2]
    omega
  · have hlt : fm_roundup size 4096 < 2 ^ 64 := by
      unfold fm_roundup
      exact Nat.mod_lt _ (by norm_num)
    omega

/-- Claim C7: reallocating a live run (k pages per the allocator's own
metadata) to any size of at most k pages returns the same pointer and
leaves the whole allocator state - metadata, free list and deferred
list - unchanged. -/
theorem C7_realloc_within_run (s : LMState) (first_page k size t : Nat)
    (hk : fetch_alloced_pages s.meta first_page = k)
    (hsz : size ≤ k * 4096) :
    fm_lm_realloc (some first_page) size t s = (some first_page, s) := by
  have hle : fm_roundup size FM_PAGE_SIZE / FM_PAGE_SIZE ≤ k :=
    fm_roundup_div_le size k hsz
  simp only [fm_lm_realloc, hk]
  rw [if_pos hle]

/-- Witness for C7_realloc_within_run: a one-page run at page 1,
reallocated to 4096 bytes. -/
theorem C7_realloc_within_run_witness :
    fm_lm_realloc (some 1) 4096 FM_LM_T_TRANSIENT lm32_p1 =
      (some 1, lm32_p1) :=
  C7_realloc_within_run lm32_p1 1 1 4096 FM_LM_T_TRANSIENT (by decide)
    (by norm_num)

/-- The drain leaves the deferred list empty. -/
theorem restore_all_freed (s : LMState) :
    (restore_all_freed_memories s).freed = [] := rfl

/-- The drain does not touch the metadata page. -/
theorem restore_all_meta (s : LMState) :
    (restore_all_freed_memories s).meta = s.meta := rfl

/-- Outcome of fm_lm_malloc when the first scan succeeds. -/
theorem fm_lm_malloc_first_success (size t : Nat) (s : LMState) (p : Nat)
    (fl : List Region)
    (h : lm_alloc (fm_roundup size FM_PAGE_SIZE / FM_PAGE_SIZE) t s.free =
      (p, fl))
    (hp : p ≠ 0) :
    fm_lm_malloc size t s =
      (some p, ⟨fl, s.freed,
        mark_alloced_pages s.meta p
          (fm_roundup size FM_PAGE_SIZE / FM_PAGE_SIZE)⟩) := by
  simp only [fm_lm_malloc, h, if_neg hp]

/-- Outcome of fm_lm_malloc when the first scan fails and the retry on
the drained state succeeds. -/
theorem fm_lm_malloc_retry_success (size t : Nat) (s : LMState)
    (fl : List Region) (p : Nat) (fl2 : List Region)
    (h1 : lm_alloc (fm_roundup size FM_PAGE_SIZE / FM_PAGE_SIZE) t s.free =
      (0, fl))
    (h2 : lm_alloc (fm_roundup size FM_PAGE_SIZE / FM_PAGE_SIZE) t
      (restore_all_freed_memories s).free = (p, fl2))
    (hp : p ≠ 0) :
    fm_lm_malloc size t s =
      (some p, ⟨fl2, [],
        mark_alloced_pages s.meta p
          (fm_roundup size FM_PAGE_SIZE / FM_PAGE_SIZE)⟩) := by
  simp only [fm_lm_malloc, h1, h2, if_pos rfl, if_neg hp, if_true,
    restore_all_freed, restore_all_meta]

/-- Outcome of fm_lm_malloc when both scans fail: NULL, and the state
is the drained state. -/
theorem fm_lm_malloc_both_fail (size t : Nat) (s : LMState)
    (fl fl2 : List Region)
    (h1 : lm_alloc (fm_roundup size FM_PAGE_SIZE / FM_PAGE_SIZE) t s.free =
      (0, fl))
    (h2 : lm_alloc (fm_roundup size FM_PAGE_SIZE / FM_PAGE_SIZE) t
      (restore_all_freed_memories s).free = (0, fl2)) :
    fm_lm_malloc size t s = (none, restore_all_freed_memories s) := by
  simp only [fm_lm_malloc, h1, h2, if_pos rfl, if_true]

/-- A zero-page request is satisfied by the first free region without
changing the list (the carved record keeps its start and pages, and is
nonempty, so it is not unlinked). -/
theorem afp_go_zero (l : List Region) (hne : l ≠ [])
    (hpos : ∀ r ∈ l, 1 ≤ r.pages) :
    afp_go 0 l = some (l.headI.start_page, l) := by
  cases l with
  | nil => simp at hne
  | cons r rest =>
    have h1 : 1 ≤ r.pages := hpos r (List.mem_cons_self r rest)
    simp only [afp_go, Nat.sub_zero, Nat.add_zero, List.headI]
    rw [if_pos (Nat.zero_le _), if_neg (by omega)]

/-- A zero-page reverse request is satisfied by the last free region
without changing the list, returning one past that region's end. -/
theorem afp_rev_go_zero (l : List Region) (hne : l ≠ [])
    (hpos : ∀ r ∈ l, 1 ≤ r.pages) :
    afp_rev_go 0 l = some ((l.getLast?.getD ⟨0, 0⟩).stop, l) := by
  induction l with
  | nil => simp at hne
  | cons r rest ih =>
    cases rest with
    | nil =>
      have h1 : 1 ≤ r.pages := hpos r (List.mem_cons_self r [])
      simp only [afp_rev_go, Nat.sub_zero, List.getLast?_singleton,
        Option.getD_some, Region.stop]
      rw [if_pos (Nat.zero_le _), if_neg (by omega)]
    | cons b rest' =>
      rw [afp_rev_go,
        ih (by simp) (fun x hx => hpos x (List.mem_cons_of_mem _ hx)),
        List.getLast?_cons_cons]

/-- The head of a non-empty region list is a member. -/
theorem headI_mem_of_ne_nil (l : List Region) (h : l ≠ []) : l.headI ∈ l := by
  cases l with
  | nil => simp at h
  | cons a t => exact List.mem_cons_self a t

/-- The last element (with default) of a non-empty region list is a
member. -/
theorem getLastD_mem_of_ne_nil (l : List Region) (h : l ≠ []) :
    l.getLast?.getD ⟨0, 0⟩ ∈ l := by
  cases l with
  | nil => simp at h
  | cons a t =>
    rw [List.getLast?_eq_getLast (a :: t) (by simp), Option.getD_some]
    exact List.getLast_mem _

/-- Claim C8: on any well-formed state with a non-empty free list,
fm_lm_malloc of size 0 returns a page (not NULL): the request rounds to
0 pages, the scan accepts the first region it examines (first in scan
order) and removes nothing from the free list, the deferred list is
untouched, a run length of 0 is recorded at the returned page, and the
returned page is page-aligned memory the allocator still considers
free: for TRANSIENT it is the first free region's start page (inside
that region), for any other direction (PERSISTENT) it is one page past
the last free region's end. -/
theorem C8_zero_size_malloc (s : LMState) (t : Nat)
    (hne : s.free ≠ [])
    (hwf : ∀ r ∈ s.free, 1 ≤ r.start_page ∧ 1 ≤ r.pages) :
    ∃ p, (fm_lm_malloc 0 t s).1 = some p ∧
      (fm_lm_malloc 0 t s).2.free = s.free ∧
      (fm_lm_malloc 0 t s).2.freed = s.freed ∧
      (fm_lm_malloc 0 t s).2.meta = mset s.meta p 0 ∧
      1 ≤ p ∧
      (t = FM_LM_T_TRANSIENT →
        p = s.free.headI.start_page ∧
        ∃ r ∈ s.free, r.start_page ≤ p ∧ p < r.stop) ∧
      (t ≠ FM_LM_T_TRANSIENT →
        p = (s.free.getLast?.getD ⟨0, 0⟩).stop) := by
  have hpos : ∀ r ∈ s.free, 1 ≤ r.pages := fun r hr => (hwf r hr).2
  have hpage0 : fm_roundup 0 FM_PAGE_SIZE / FM_PAGE_SIZE = 0 := by decide
  by_cases ht : t = FM_LM_T_TRANSIENT
  · subst ht
    have hgo := afp_go_zero s.free hne hpos
    have hhead : s.free.headI ∈ s.free := headI_mem_of_ne_nil s.free hne
    have hp1 : 1 ≤ s.free.headI.start_page := (hwf _ hhead).1
    have hall : lm_alloc (fm_roundup 0 FM_PAGE_SIZE / FM_PAGE_SIZE)
        FM_LM_T_TRANSIENT s.free = (s.free.headI.start_page, s.free) := by
      rw [hpage0]
      simp only [lm_alloc, if_pos rfl, alloc_free_pages, hgo, if_true]
    have hm := fm_lm_malloc_first_success 0 FM_LM_T_TRANSIENT s _ _ hall
      (by omega)
    rw [hpage0] at hm
    refine ⟨s.free.headI.start_page, ?_⟩
    rw [hm]
    refine ⟨rfl, rfl, rfl, by simp [mark_alloced_pages], hp1,
      fun _ => ⟨rfl, ⟨s.free.headI, hhead, le_refl _, ?_⟩⟩,
      fun h => absurd rfl h⟩
    have := (hwf _ hhead).2
    unfold Region.stop
    omega
  · have hgo := afp_rev_go_zero s.free hne hpos
    have hmem : s.free.getLast?.getD ⟨0, 0⟩ ∈ s.free :=
      getLastD_mem_of_ne_nil s.free hne
    have hp1 : 1 ≤ (s.free.getLast?.getD ⟨0, 0⟩).stop := by
      have := (hwf _ hmem).1
      unfold Region.stop
      omega
    have hall : lm_alloc (fm_roundup 0 FM_PAGE_SIZE / FM_PAGE_SIZE) t s.free =
        ((s.free.getLast?.getD ⟨0, 0⟩).stop, s.free) := by
      rw [hpage0]
      simp only [lm_alloc, if_neg ht, alloc_free_pages_reverse, hgo]
    have hm := fm_lm_malloc_first_success 0 t s _ _ hall (by omega)
    rw [hpage0] at hm
    refine ⟨(s.free.getLast?.getD ⟨0, 0⟩).stop, ?_⟩
    rw [hm]
    exact ⟨rfl, rfl, rfl, by simp [mark_alloced_pages], hp1,
      fun h => absurd h ht, fun _ => rfl⟩

/-- Witness for C8_zero_size_malloc on the freshly reinitialized
128 KiB buffer with the PERSISTENT direction. -/
theorem C8_zero_size_malloc_witness :
    ∃ p, (fm_lm_malloc 0 FM_LM_T_PERSISTENT lm32_init).1 = some p ∧
      (fm_lm_malloc 0 FM_LM_T_PERSISTENT lm32_init).2.free = lm32_init.free ∧
      (fm_lm_malloc 0 FM_LM_T_PERSISTENT lm32_init).2.freed =
        lm32_init.freed ∧
      (fm_lm_malloc 0 FM_LM_T_PERSISTENT lm32_init).2.meta =
        mset lm32_init.meta p 0 ∧
      1 ≤ p ∧
      (FM_LM_T_PERSISTENT = FM_LM_T_TRANSIENT →
        p = lm32_init.free.headI.start_page ∧
        ∃ r ∈ lm32_init.free, r.start_page ≤ p ∧ p < r.stop) ∧
      (FM_LM_T_PERSISTENT ≠ FM_LM_T_TRANSIENT →
        p = (lm32_init.free.getLast?.getD ⟨0, 0⟩).stop) :=
  C8_zero_size_malloc lm32_init FM_LM_T_PERSISTENT (by decide) (by decide)

/-- No size class serves requests above 1024 bytes. -/
theorem slab_index_oversize (size : Nat) (h : 1024 < size) :
    slab_index size = none := by
  simp only [slab_index, slab_sizes, slab_index_go]
  rw [if_neg (by omega), if_neg (by omega), if_neg (by omega),
    if_neg (by omega), if_neg (by omega)]

/-- Claim C6, counterexample: with the linear allocator exhausted and
one entirely cleared slab page (page 31, class 0) sitting in its class
list, fm_sm_malloc(64) needs a fresh slab page, calls the linear
allocator directly and returns NULL with the slab lists and registry
untouched - no empty-slab reclamation and no retry happen, although the
retry after free_empty_slabs would succeed (it would reclaim page 31).
This contradicts the claim that the fresh-slab path retries after
returning every cleared slab page. -/
theorem C6_counterexample :
    (fm_sm_malloc 64 sm_c6).1 = none ∧
    (fm_sm_malloc 64 sm_c6).2.spages = sm_c6.spages ∧
    (fm_sm_malloc 64 sm_c6).2.lists = sm_c6.lists ∧
    (fm_lm_malloc FM_PAGE_SIZE FM_LM_T_PERSISTENT
      (free_empty_slabs sm_c6).lm).1 = some 31 := by
  decide

/-- Claim C6 (amended): the retry-once-after-reclamation behaviour
holds only for the oversized path: for a request above the largest
class, fm_sm_malloc returns NULL exactly when the first linear attempt
fails and so does the retry performed after free_empty_slabs. The
fresh-slab path calls the linear allocator once; when that call fails,
fm_sm_malloc returns NULL immediately, with the slab lists and the page
registry untouched (no reclamation, no retry). -/
theorem C6_retry_only_for_oversize :
    (∀ (s : SMState) (size : Nat), 1024 < size →
      ((fm_sm_malloc size s).1 = none ↔
        ((fm_lm_malloc size FM_LM_T_TRANSIENT s.lm).1 = none ∧
          (fm_lm_malloc size FM_LM_T_TRANSIENT
            (free_empty_slabs
              { s with lm :=
                  (fm_lm_malloc size FM_LM_T_TRANSIENT s.lm).2 }).lm).1 =
            none))) ∧
    (∀ (s : SMState) (size i : Nat), slab_index size = some i →
      sm_walk i s (lists_get s i) = none →
      (fm_lm_malloc FM_PAGE_SIZE FM_LM_T_PERSISTENT s.lm).1 = none →
      fm_sm_malloc size s =
        (none,
          { s with lm :=
              (fm_lm_malloc FM_PAGE_SIZE FM_LM_T_PERSISTENT s.lm).2 })) := by
  constructor
  · intro s size hsz
    have hsi : slab_index size = none := slab_index_oversize size hsz
    rcases h1 : fm_lm_malloc size FM_LM_T_TRANSIENT s.lm with ⟨p1, lm1⟩
    cases p1 with
    | some p =>
      simp only [fm_sm_malloc, hsi, lm_malloc, h1]
      simp
    | none =>
      rcases h2 : fm_lm_malloc size FM_LM_T_TRANSIENT
        (free_empty_slabs { s with lm := lm1 }).lm with ⟨p2, lm2⟩
      simp only [fm_sm_malloc, hsi, lm_malloc, h1, h2]
      cases p2 <;> simp
  · intro s size i hsi hwalk hfail
    rcases hf : fm_lm_malloc FM_PAGE_SIZE FM_LM_T_PERSISTENT s.lm
      with ⟨pf, lmf⟩
    rw [hf] at hfail
    simp only at hfail
    subst hfail
    simp only [fm_sm_malloc, hsi, hwalk, hf]

/-- Witness for C6_retry_only_for_oversize at concrete inputs: an
oversized request of 2000 bytes on the exhausted state sm_c10, and a
class-1 request of 64 bytes there (class list 1 is empty, and the fresh
slab page cannot be allocated). -/
theorem C6_retry_only_for_oversize_witness :
    ((fm_sm_malloc 2000 sm_c10).1 = none ↔
      ((fm_lm_malloc 2000 FM_LM_T_TRANSIENT sm_c10.lm).1 = none ∧
        (fm_lm_malloc 2000 FM_LM_T_TRANSIENT
          (free_empty_slabs
            { sm_c10 with lm :=
                (fm_lm_malloc 2000 FM_LM_T_TRANSIENT sm_c10.lm).2 }).lm).1 =
          none)) ∧
    fm_sm_malloc 64 sm_c10 =
      (none,
        { sm_c10 with lm :=
            (fm_lm_malloc FM_PAGE_SIZE FM_LM_T_PERSISTENT sm_c10.lm).2 }) :=
  ⟨C6_retry_only_for_oversize.1 sm_c10 2000 (by norm_num),
    C6_retry_only_for_oversize.2 sm_c10 64 1 (by decide) (by decide)
      (by decide)⟩

/-- Removing the slab record of another page does not change a page's
lookup. -/
theorem find_slab_remove_ne (ps : List page_meta_t) (pn pn' : Nat)
    (h : pn ≠ pn') :
    find_slab (remove_slab ps pn') pn = find_slab ps pn := by
  induction ps with
  | nil => rfl
  | cons x rest ih =>
    by_cases hx : x.page = pn'
    · simp only [remove_slab, List.eraseP_cons, hx, beq_self_eq_true,
        cond_true]
      unfold find_slab
      rw [List.find?_cons_of_neg _ (by simp [hx, Ne.symm h])]
    · simp only [remove_slab, List.eraseP_cons, beq_eq_false_iff_ne.mpr hx,
        cond_false]
      by_cases hpx : x.page = pn
      · unfold find_slab
        rw [List.find?_cons_of_pos _ (by simp [hpx]),
          List.find?_cons_of_pos _ (by simp [hpx])]
      · unfold find_slab at ih ⊢
        rw [List.find?_cons_of_neg _ (by simp [hpx]),
          List.find?_cons_of_neg _ (by simp [hpx])]
        exact ih

/-- free_empty_slabs never touches a slab page that has a set bit: one
class-list pass. The record stays found, and the page survives in the
output list exactly when it was in the input list. -/
theorem fes_class_frame (lst : List Nat) (ps : List page_meta_t)
    (lm : LMState) (pn : Nat) (m : page_meta_t)
    (hf : find_slab ps pn = some m)
    (hc : bitmap_all_cleared m = false) :
    find_slab (fes_class ps lm lst).2.1 pn = some m ∧
    (pn ∈ (fes_class ps lm lst).1 ↔ pn ∈ lst) := by
  induction lst generalizing ps lm with
  | nil => exact ⟨hf, Iff.rfl⟩
  | cons pn' rest ih =>
    by_cases hpp : pn = pn'
    · subst hpp
      simp only [fes_class, hf, hc, Bool.false_eq_true, if_false]
      have h2 := ih ps lm hf
      exact ⟨h2.1, by simp [h2.2]⟩
    · cases hfind' : find_slab ps pn' with
      | none =>
        simp only [fes_class, hfind']
        have h2 := ih ps lm hf
        exact ⟨h2.1, by simp [h2.2, hpp]⟩
      | some m' =>
        by_cases hcl : bitmap_all_cleared m'
        · simp only [fes_class, hfind', hcl, if_true]
          have hf2 : find_slab (remove_slab ps pn') pn = some m := by
            rw [find_slab_remove_ne ps pn pn' hpp]
            exact hf
          have h2 := ih (remove_slab ps pn') (fm_lm_free pn' lm) hf2
          exact ⟨h2.1, by simp [h2.2, hpp]⟩
        · simp only [fes_class, hfind', hcl, Bool.false_eq_true, if_false]
          have h2 := ih ps lm hf
          exact ⟨h2.1, by simp [h2.2, hpp]⟩

/-- getD after setting a different index. -/
theorem getD_set_ne (ls : List (List Nat)) (i j : Nat) (l : List Nat)
    (h : j ≠ i) : (ls.set i l).getD j [] = ls.getD j [] := by
  simp [List.getD, List.getElem?_set_ne (Ne.symm h)]

/-- getD after setting the same (in-range) index. -/
theorem getD_set_self (ls : List (List Nat)) (i : Nat) (l : List Nat)
    (h : i < ls.length) : (ls.set i l).getD i [] = l := by
  simp [List.getD, List.getElem?_set_self, h]

/-- One whole-class pass of free_empty_slabs keeps every slab page with
a set bit: record and class-list memberships are unchanged. -/
theorem fes_classes_frame (s : SMState) (i : Nat) (pn : Nat)
    (m : page_meta_t)
    (hf : find_slab s.spages pn = some m)
    (hc : bitmap_all_cleared m = false) :
    find_slab (fes_classes s i).spages pn = some m ∧
    ∀ j, pn ∈ lists_get (fes_classes s i) j ↔ pn ∈ lists_get s j := by
  have h := fes_class_frame (lists_get s i) s.spages s.lm pn m hf hc
  refine ⟨h.1, fun j => ?_⟩
  by_cases hj : j = i
  · subst hj
    by_cases hlen : j < s.lists.length
    · show pn ∈ (s.lists.set j _).getD j [] ↔ _
      rw [getD_set_self s.lists j _ hlen]
      exact h.2
    · show pn ∈ (s.lists.set j _).getD j [] ↔ _
      rw [List.set_eq_of_length_le (by omega)]
      exact Iff.rfl
  · show pn ∈ (s.lists.set i _).getD j [] ↔ _
    rw [getD_set_ne s.lists i j _ hj]
    exact Iff.rfl

/-- free_empty_slabs keeps every slab page with a set bit: record and
class-list memberships are unchanged. -/
theorem free_empty_slabs_frame (s : SMState) (pn : Nat) (m : page_meta_t)
    (hf : find_slab s.spages pn = some m)
    (hc : bitmap_all_cleared m = false) :
    find_slab (free_empty_slabs s).spages pn = some m ∧
    ∀ j, pn ∈ lists_get (free_empty_slabs s) j ↔ pn ∈ lists_get s j := by
  have main : ∀ (idxs : List Nat) (s : SMState),
      find_slab s.spages pn = some m →
      find_slab (idxs.foldl fes_classes s).spages pn = some m ∧
      ∀ j, pn ∈ lists_get (idxs.foldl fes_classes s) j ↔
        pn ∈ lists_get s j := by
    intro idxs
    induction idxs with
    | nil => exact fun s hf => ⟨hf, fun _ => Iff.rfl⟩
    | cons i rest ih =>
      intro s hf
      have h1 := fes_classes_frame s i pn m hf hc
      have h2 := ih (fes_classes s i) h1.1
      exact ⟨h2.1, fun j => (h2.2 j).trans (h1.2 j)⟩
  exact main (List.range 5) s hf

/-- A failed fm_sm_malloc leaves every slab page with a set bit
untouched: same record, same class-list memberships. -/
theorem fm_sm_malloc_none_frame (size : Nat) (s : SMState) (pn : Nat)
    (m : page_meta_t)
    (h : (fm_sm_malloc size s).1 = none)
    (hf : find_slab s.spages pn = some m)
    (hc : bitmap_all_cleared m = false) :
    find_slab (fm_sm_malloc size s).2.spages pn = some m ∧
    ∀ j, pn ∈ lists_get (fm_sm_malloc size s).2 j ↔ pn ∈ lists_get s j := by
  cases hsi : slab_index size with
  | none =>
    rcases h1 : fm_lm_malloc size FM_LM_T_TRANSIENT s.lm with ⟨p1, lm1⟩
    cases p1 with
    | some p =>
      simp only [fm_sm_malloc, hsi, lm_malloc, h1] at h
      simp at h
    | none =>
      have hfr := free_empty_slabs_frame { s with lm := lm1 } pn m hf hc
      rcases h2 : fm_lm_malloc size FM_LM_T_TRANSIENT
        (free_empty_slabs { s with lm := lm1 }).lm with ⟨p2, lm2⟩
      simp only [fm_sm_malloc, hsi, lm_malloc, h1, h2]
      exact ⟨hfr.1, fun j => hfr.2 j⟩
  | some i =>
    cases hw : sm_walk i s (lists_get s i) with
    | some res =>
      simp only [fm_sm_malloc, hsi, hw] at h
      simp at h
    | none =>
      rcases h2 : fm_lm_malloc FM_PAGE_SIZE FM_LM_T_PERSISTENT s.lm
        with ⟨p2, lm2⟩
      cases p2 with
      | some p =>
        simp only [fm_sm_malloc, hsi, hw, h2] at h
        simp at h
      | none =>
        simp only [fm_sm_malloc, hsi, hw, h2]
        exact ⟨hf, fun j => Iff.rfl⟩

/-- Claim C10: for an allocated slab cell (its pointer is not
page-aligned and its bitmap bit is set) and a request strictly above
the cell's class size, if the inner fm_sm_malloc fails then
fm_sm_realloc returns NULL, the resulting state is exactly the state
after the failed inner malloc (so the copy-and-free branch never ran
and the old cell's bit is still set), the old slab page's header is
unchanged, and the page's membership in every class list is
unchanged. -/
theorem C10_sm_realloc_failed_grow (s : SMState) (ptr size : Nat)
    (m : page_meta_t)
    (hal : ptr &&& (FM_PAGE_SIZE - 1) ≠ 0)
    (hfind : find_slab s.spages (ptr / FM_PAGE_SIZE) = some m)
    (hsize : m.size < size)
    (hbit : (if ptr_to_index m ptr < 64 then m.bitmap0
      else m.bitmap1).testBit (ptr_to_index m ptr % 64) = true)
    (hfail : (fm_sm_malloc size s).1 = none) :
    fm_sm_realloc ptr size s = some (none, (fm_sm_malloc size s).2) ∧
    find_slab (fm_sm_malloc size s).2.spages (ptr / FM_PAGE_SIZE) =
      some m ∧
    (∀ j, ptr / FM_PAGE_SIZE ∈ lists_get (fm_sm_malloc size s).2 j ↔
      ptr / FM_PAGE_SIZE ∈ lists_get s j) := by
  have hc : bitmap_all_cleared m = false := by
    by_cases h64 : ptr_to_index m ptr < 64
    · rw [if_pos h64] at hbit
      have hb0 : m.bitmap0 ≠ 0 := by
        intro h0
        rw [h0, Nat.zero_testBit] at hbit
        exact Bool.false_ne_true hbit
      simp [bitmap_all_cleared, hb0]
    · rw [if_neg h64] at hbit
      have hb1 : m.bitmap1 ≠ 0 := by
        intro h0
        rw [h0, Nat.zero_testBit] at hbit
        exact Bool.false_ne_true hbit
      simp [bitmap_all_cleared, hb1]
  have hframe := fm_sm_malloc_none_frame size s (ptr / FM_PAGE_SIZE) m
    hfail hfind hc
  refine ⟨?_, hframe.1, hframe.2⟩
  rcases hr : fm_sm_malloc size s with ⟨p, s2⟩
  rw [hr] at hfail
  simp only at hfail
  subst hfail
  simp only [fm_sm_realloc, if_neg hal, hfind, if_neg (by omega :
    ¬ size ≤ m.size), hr]

/-- Witness for C10_sm_realloc_failed_grow: the allocated 32-byte cell
0 of the slab page at page 31 of sm_c10, grown to 64 bytes while the
linear allocator is exhausted. -/
theorem C10_sm_realloc_failed_grow_witness :
    fm_sm_realloc (31 * 4096 + 64) 64 sm_c10 =
      some (none, (fm_sm_malloc 64 sm_c10).2) ∧
    find_slab (fm_sm_malloc 64 sm_c10).2.spages ((31 * 4096 + 64) / FM_PAGE_SIZE) =
      some ⟨31, 1, 0, 32, 126, 0⟩ ∧
    (∀ j, (31 * 4096 + 64) / FM_PAGE_SIZE ∈
        lists_get (fm_sm_malloc 64 sm_c10).2 j ↔
      (31 * 4096 + 64) / FM_PAGE_SIZE ∈ lists_get sm_c10 j) :=
  C10_sm_realloc_failed_grow sm_c10 (31 * 4096 + 64) 64 ⟨31, 1, 0, 32, 126, 0⟩
    (by decide) (by decide) (by decide) (by decide) (by decide)

/-! ## Interval and metadata lemmas -/

/-- Unfolding lemma for Region.stop. -/
theorem Region.stop_def (r : Region) : r.stop = r.start_page + r.pages := rfl

/-- Disjointness is symmetric. -/
theorem rdisj_symm {a b : Region} (h : rdisj a b) : rdisj b a := h.symm

/-- A subinterval of a region disjoint from x is disjoint from x. -/
theorem rdisj_of_sub {a a' b : Region} (h1 : a'.start_page ≤ a.start_page)
    (h2 : a.stop ≤ a'.stop) (h : rdisj a' b) : rdisj a b := by
  unfold rdisj Region.stop at *
  omega

/-- Two adjacent intervals both disjoint from a nonempty x give a
combined interval disjoint from x. -/
theorem rdisj_union {s1 n1 n2 : Nat} {x : Region} (hx : 1 ≤ x.pages)
    (h1 : rdisj ⟨s1, n1⟩ x) (h2 : rdisj ⟨s1 + n1, n2⟩ x) :
    rdisj ⟨s1, n1 + n2⟩ x := by
  unfold rdisj Region.stop at *
  simp only at h1 h2 ⊢
  omega

/-- A region strictly below another is disjoint from it. -/
theorem rdisj_of_rlt {a b : Region} (h : rlt a b) : rdisj a b := by
  unfold rdisj rlt Region.stop at *
  omega

/-- A sorted separated chain is pairwise disjoint. -/
theorem chain_rlt_pairwise {l : List Region} (h : l.Chain' rlt) :
    l.Pairwise rdisj :=
  (List.chain'_iff_pairwise.mp h).imp rdisj_of_rlt

/-- Disjoint regions cover no common page. -/
theorem covers_not_of_rdisj {a b : Region} {p : Nat} (h : rdisj a b)
    (ha : a.covers p) : ¬ b.covers p := by
  unfold rdisj Region.covers Region.stop at *
  omega

/-- A nonempty region whose pages are all covered by a list of regions
each disjoint from the nonempty x is itself disjoint from x. -/
theorem rdisj_of_coversL {x y : Region} {l : List Region}
    (hx : 1 ≤ x.pages) (hyp : 1 ≤ y.pages)
    (hy : ∀ p, y.covers p → coversL l p)
    (hl : ∀ r ∈ l, rdisj x r) : rdisj x y := by
  by_contra hnd
  have hov : y.start_page < x.start_page + x.pages ∧
      x.start_page < y.start_page + y.pages := by
    unfold rdisj Region.stop at hnd
    omega
  rcases Nat.le_total x.start_page y.start_page with hle | hle
  · have hpt : y.covers y.start_page := by
      unfold Region.covers Region.stop
      omega
    have hxt : x.covers y.start_page := by
      unfold Region.covers Region.stop
      omega
    rcases hy _ hpt with ⟨r, hr, hrc⟩
    exact covers_not_of_rdisj (hl r hr) hxt hrc
  · have hpt : y.covers x.start_page := by
      unfold Region.covers Region.stop
      omega
    have hxt : x.covers x.start_page := by
      unfold Region.covers Region.stop
      omega
    rcases hy _ hpt with ⟨r, hr, hrc⟩
    exact covers_not_of_rdisj (hl r hr) hxt hrc

/-- Reading the byte just written. -/
theorem mget_mset_self (m : MetaBytes) (i v : Nat) :
    mget (mset m i v) i = v := by
  simp [mget, mset, List.find?]

/-- Reading another byte after a write. -/
theorem mget_mset_ne (m : MetaBytes) (i v j : Nat) (h : j ≠ i) :
    mget (mset m i v) j = mget m j := by
  unfold mget mset
  rw [List.find?_cons_of_neg _ (by simp [Ne.symm h])]

/-- Bitmask identity for the 4-byte alignment. -/
theorem and_3_eq_mod (x : Nat) : x &&& 3 = x % 4 := by
  have h : (3 : Nat) = 2 ^ 2 - 1 := by norm_num
  have h2 : (4 : Nat) = 2 ^ 2 := by norm_num
  rw [h, h2, Nat.and_pow_two_sub_one_eq_mod]

/-- __fm_roundup by 4 stays within 3 of its argument (no wrap for small
arguments). -/
theorem fm_roundup_4_bounds (x : Nat) (h : x + 3 < 2 ^ 64) :
    x ≤ fm_roundup x 4 ∧ fm_roundup x 4 ≤ x + 3 := by
  unfold fm_roundup
  rw [show (4 - 1 : Nat) = 3 from rfl, and_3_eq_mod]
  omega

/-- The 32-bit metadata store and load round-trip. -/
theorem read32_write32 (m : MetaBytes) (a v : Nat) (hv : v < 2 ^ 32) :
    read32 (write32 m a v) a = v := by
  unfold read32 write32
  rw [mget_mset_ne _ _ _ _ (by omega), mget_mset_ne _ _ _ _ (by omega),
    mget_mset_ne _ _ _ _ (by omega), mget_mset_self,
    mget_mset_ne _ _ _ _ (by omega), mget_mset_ne _ _ _ _ (by omega),
    mget_mset_self,
    mget_mset_ne _ _ _ _ (by omega), mget_mset_self,
    mget_mset_self]
  omega

/-- A 32-bit store touches only bytes a to a+3. -/
theorem mget_write32_outside (m : MetaBytes) (a v i : Nat)
    (h : i < a ∨ a + 4 ≤ i) : mget (write32 m a v) i = mget m i := by
  unfold write32
  rw [mget_mset_ne _ _ _ _ (by omega), mget_mset_ne _ _ _ _ (by omega),
    mget_mset_ne _ _ _ _ (by omega), mget_mset_ne _ _ _ _ (by omega)]

/-- mark_alloced_pages writes only inside the page interval of the run
it records (for a run of n >= 1 pages starting at p, only bytes with
index in [p, p+n), using that the extended encoding is only used for
n >= 255 while its bytes lie below p+8). -/
theorem mget_mark_outside (m : MetaBytes) (p n i : Nat) (hn : 1 ≤ n)
    (hp : p + 8 < 2 ^ 64) (hi : i < p ∨ p + n ≤ i) :
    mget (mark_alloced_pages m p n) i = mget m i := by
  unfold mark_alloced_pages
  by_cases h255 : n < 255
  · rw [if_pos h255, mget_mset_ne _ _ _ _ (by omega)]
  · rw [if_neg h255]
    have hb := fm_roundup_4_bounds (p + 1) (by omega)
    rw [mget_write32_outside _ _ _ _ (by omega),
      mget_mset_ne _ _ _ _ (by omega)]

/-- Fetching the length just marked (for n below 2^32). -/
theorem fetch_mark_self (m : MetaBytes) (p n : Nat) (hp : p + 8 < 2 ^ 64)
    (hn : n < 2 ^ 32) :
    fetch_alloced_pages (mark_alloced_pages m p n) p = n := by
  unfold fetch_alloced_pages mark_alloced_pages
  by_cases h255 : n < 255
  · rw [if_pos h255, mget_mset_self, if_pos h255]
  · rw [if_neg h255]
    have hb := fm_roundup_4_bounds (p + 1) (by omega)
    rw [mget_write32_outside _ _ _ _ (by omega), mget_mset_self,
      if_neg (by omega), read32_write32 _ _ _ (by omega)]
    omega

/-- Marking a run disjoint from the live run b changes neither the
byte at b's first page nor the length fetched for b (the extended
encoding of b reads only bytes inside b's run). -/
theorem fetch_mark_frame (m : MetaBytes) (p n : Nat) (b : Region)
    (hn : 1 ≤ n) (hp : p + 8 < 2 ^ 64) (hb : b.start_page + 8 < 2 ^ 64)
    (hbpos : 1 ≤ b.pages)
    (hdisj : p + n ≤ b.start_page ∨ b.stop ≤ p)
    (hext : 255 ≤ mget m b.start_page →
      fm_roundup (b.start_page + 1) 4 + 4 ≤ b.stop) :
    fetch_alloced_pages (mark_alloced_pages m p n) b.start_page =
      fetch_alloced_pages m b.start_page ∧
    mget (mark_alloced_pages m p n) b.start_page =
      mget m b.start_page := by
  have hbst : mget (mark_alloced_pages m p n) b.start_page =
      mget m b.start_page := by
    apply mget_mark_outside _ _ _ _ hn hp
    unfold Region.stop at hdisj
    omega
  refine ⟨?_, hbst⟩
  unfold fetch_alloced_pages
  rw [hbst]
  by_cases h255 : mget m b.start_page < 255
  · rw [if_pos h255, if_pos h255]
  · rw [if_neg h255, if_neg h255]
    have hx := hext (by omega)
    have hrb := fm_roundup_4_bounds (b.start_page + 1) (by omega)
    unfold Region.stop at hdisj hx
    unfold read32
    rw [mget_mark_outside _ _ _ _ hn hp (by omega),
      mget_mark_outside _ _ _ _ hn hp (by omega),
      mget_mark_outside _ _ _ _ hn hp (by omega),
      mget_mark_outside _ _ _ _ hn hp (by omega)]

/-! ## Carve specifications

What each allocation scan does to a well-formed free list: the carved
run lies inside one free region, the remaining list is again a sorted
separated chain of nonempty regions each contained in an input region,
and the carved run is disjoint from the remaining list. -/

/-- Arithmetic form of rlt. -/
theorem rlt_def (a b : Region) :
    rlt a b ↔ a.start_page + a.pages < b.start_page := Iff.rfl

/-- Arithmetic form of rdisj. -/
theorem rdisj_def (a b : Region) :
    rdisj a b ↔ (a.start_page + a.pages ≤ b.start_page ∨
      b.start_page + b.pages ≤ a.start_page) := Iff.rfl

/-- Arithmetic form of covers. -/
theorem covers_def (r : Region) (p : Nat) :
    r.covers p ↔ (r.start_page ≤ p ∧ p < r.start_page + r.pages) := Iff.rfl

/-- Specification of the forward (TRANSIENT) carve. -/
theorem afp_go_spec (req : Nat) (hreq : 1 ≤ req) :
    ∀ (l : List Region) (p : Nat) (l' : List Region),
    afp_go req l = some (p, l') →
    l.Chain' rlt →
    (∀ r ∈ l, 1 ≤ r.pages) →
    (∃ r ∈ l, r.start_page ≤ p ∧ p + req ≤ r.stop) ∧
    l'.Chain' rlt ∧
    (∀ x ∈ l', 1 ≤ x.pages) ∧
    (∀ x ∈ l', ∃ r ∈ l, r.start_page ≤ x.start_page ∧ x.stop ≤ r.stop) ∧
    (∀ x ∈ l', rdisj ⟨p, req⟩ x) := by
  intro l
  induction l with
  | nil => intro p l' h _ _; simp [afp_go] at h
  | cons r rest ih =>
    intro p l' h hchain hpos
    have hplt := List.chain'_iff_pairwise.mp hchain
    rw [List.pairwise_cons] at hplt
    by_cases hfit : req ≤ r.pages
    · simp only [afp_go, if_pos hfit, Option.some.injEq, Prod.mk.injEq] at h
      obtain ⟨hp, hl'⟩ := h
      subst hp
      by_cases hz : r.pages - req = 0
      · rw [if_pos hz] at hl'
        subst hl'
        refine ⟨⟨r, List.mem_cons_self r rest, le_refl _, ?_⟩,
          hchain.tail, fun x hx => hpos x (List.mem_cons_of_mem r hx),
          fun x hx => ⟨x, List.mem_cons_of_mem r hx, le_refl _, le_refl _⟩,
          fun x hx => ?_⟩
        · simp only [Region.stop_def]
          omega
        · have h1 := (rlt_def _ _).mp (hplt.1 x hx)
          simp only [rdisj_def]
          omega
      · rw [if_neg hz] at hl'
        subst hl'
        refine ⟨⟨r, List.mem_cons_self r rest, le_refl _, ?_⟩, ?_, ?_, ?_, ?_⟩
        · simp only [Region.stop_def]
          omega
        · rw [List.chain'_cons']
          refine ⟨fun y hy => ?_, hchain.tail⟩
          have h1 := (rlt_def _ _).mp (hplt.1 y (List.mem_of_mem_head? hy))
          simp only [rlt_def]
          omega
        · intro x hx
          rcases List.mem_cons.mp hx with hx | hx
          · subst hx
            simp only
            omega
          · exact hpos x (List.mem_cons_of_mem r hx)
        · intro x hx
          rcases List.mem_cons.mp hx with hx | hx
          · subst hx
            refine ⟨r, List.mem_cons_self r rest, ?_, ?_⟩ <;>
              simp only [Region.stop_def] <;> omega
          · exact ⟨x, List.mem_cons_of_mem r hx, le_refl _, le_refl _⟩
        · intro x hx
          rcases List.mem_cons.mp hx with hx | hx
          · subst hx
            simp only [rdisj_def]
            omega
          · have h1 := (rlt_def _ _).mp (hplt.1 x hx)
            simp only [rdisj_def]
            omega
    · simp only [afp_go, if_neg hfit] at h
      rcases hrec : afp_go req rest with _ | ⟨p', rest'⟩ <;> rw [hrec] at h
      · simp at h
      · simp only [Option.some.injEq, Prod.mk.injEq] at h
        obtain ⟨hp, hl'⟩ := h
        subst hp
        subst hl'
        obtain ⟨hex, hch, hpos', hsub, hdisj⟩ :=
          ih p' rest' hrec hchain.tail
            (fun x hx => hpos x (List.mem_cons_of_mem r hx))
        obtain ⟨rr, hrr, hrr1, hrr2⟩ := hex
        refine ⟨⟨rr, List.mem_cons_of_mem r hrr, hrr1, hrr2⟩, ?_, ?_, ?_, ?_⟩
        · rw [List.chain'_cons']
          refine ⟨fun y hy => ?_, hch⟩
          obtain ⟨ry, hry, hry1, hry2⟩ := hsub y (List.mem_of_mem_head? hy)
          have h1 := (rlt_def _ _).mp (hplt.1 ry hry)
          simp only [Region.stop_def] at hry2
          simp only [rlt_def]
          omega
        · intro x hx
          rcases List.mem_cons.mp hx with hx | hx
          · subst hx
            exact hpos _ (List.mem_cons_self _ _)
          · exact hpos' x hx
        · intro x hx
          rcases List.mem_cons.mp hx with hx | hx
          · subst hx
            exact ⟨x, List.mem_cons_self x rest, le_refl _, le_refl _⟩
          · obtain ⟨ry, hry, hh⟩ := hsub x hx
            exact ⟨ry, List.mem_cons_of_mem r hry, hh⟩
        · intro x hx
          rcases List.mem_cons.mp hx with hx | hx
          · subst hx
            have h1 := (rlt_def _ _).mp (hplt.1 rr hrr)
            simp only [Region.stop_def] at hrr2
            simp only [rdisj_def]
            omega
          · exact hdisj x hx

/-- Specification of the designated carve (realloc's in-place search):
like the forward carve, but the carved run starts exactly at the
requested start page. -/
theorem adp_go_spec (startp req : Nat) (hreq : 1 ≤ req) :
    ∀ (l : List Region) (p : Nat) (l' : List Region),
    adp_go startp req l = some (p, l') →
    l.Chain' rlt →
    (∀ r ∈ l, 1 ≤ r.pages) →
    p = startp ∧
    (∃ r ∈ l, r.start_page = startp ∧ startp + req ≤ r.stop) ∧
    l'.Chain' rlt ∧
    (∀ x ∈ l', 1 ≤ x.pages) ∧
    (∀ x ∈ l', ∃ r ∈ l, r.start_page ≤ x.start_page ∧ x.stop ≤ r.stop) ∧
    (∀ x ∈ l', rdisj ⟨startp, req⟩ x) := by
  intro l
  induction l with
  | nil => intro p l' h _ _; simp [adp_go] at h
  | cons r rest ih =>
    intro p l' h hchain hpos
    have hplt := List.chain'_iff_pairwise.mp hchain
    rw [List.pairwise_cons] at hplt
    by_cases hfit : r.start_page = startp ∧ req ≤ r.pages
    · simp only [adp_go, if_pos hfit, Option.some.injEq, Prod.mk.injEq] at h
      obtain ⟨hp, hl'⟩ := h
      obtain ⟨hst, hle⟩ := hfit
      by_cases hz : r.pages - req = 0
      · rw [if_pos hz] at hl'
        subst hl'
        refine ⟨by omega, ⟨r, List.mem_cons_self r rest, hst, ?_⟩,
          hchain.tail, fun x hx => hpos x (List.mem_cons_of_mem r hx),
          fun x hx => ⟨x, List.mem_cons_of_mem r hx, le_refl _, le_refl _⟩,
          fun x hx => ?_⟩
        · simp only [Region.stop_def]
          omega
        · have h1 := (rlt_def _ _).mp (hplt.1 x hx)
          simp only [rdisj_def]
          omega
      · rw [if_neg hz] at hl'
        subst hl'
        refine ⟨by omega, ⟨r, List.mem_cons_self r rest, hst, ?_⟩,
          ?_, ?_, ?_, ?_⟩
        · simp only [Region.stop_def]
          omega
        · rw [List.chain'_cons']
          refine ⟨fun y hy => ?_, hchain.tail⟩
          have h1 := (rlt_def _ _).mp (hplt.1 y (List.mem_of_mem_head? hy))
          simp only [rlt_def]
          omega
        · intro x hx
          rcases List.mem_cons.mp hx with hx | hx
          · subst hx
            simp only
            omega
          · exact hpos x (List.mem_cons_of_mem r hx)
        · intro x hx
          rcases List.mem_cons.mp hx with hx | hx
          · subst hx
            refine ⟨r, List.mem_cons_self r rest, ?_, ?_⟩ <;>
              simp only [Region.stop_def] <;> omega
          · exact ⟨x, List.mem_cons_of_mem r hx, le_refl _, le_refl _⟩
        · intro x hx
          rcases List.mem_cons.mp hx with hx | hx
          · subst hx
            simp only [rdisj_def]
            omega
          · have h1 := (rlt_def _ _).mp (hplt.1 x hx)
            simp only [rdisj_def]
            omega
    · simp only [adp_go, if_neg hfit] at h
      rcases hrec : adp_go startp req rest with _ | ⟨p', rest'⟩ <;>
        rw [hrec] at h
      · simp at h
      · simp only [Option.some.injEq, Prod.mk.injEq] at h
        obtain ⟨hp, hl'⟩ := h
        subst hp
        subst hl'
        obtain ⟨hps, hex, hch, hpos', hsub, hdisj⟩ :=
          ih p' rest' hrec hchain.tail
            (fun x hx => hpos x (List.mem_cons_of_mem r hx))
        obtain ⟨rr, hrr, hrr1, hrr2⟩ := hex
        refine ⟨hps, ⟨rr, List.mem_cons_of_mem r hrr, hrr1, hrr2⟩,
          ?_, ?_, ?_, ?_⟩
        · rw [List.chain'_cons']
          refine ⟨fun y hy => ?_, hch⟩
          obtain ⟨ry, hry, hry1, hry2⟩ := hsub y (List.mem_of_mem_head? hy)
          have h1 := (rlt_def _ _).mp (hplt.1 ry hry)
          simp only [Region.stop_def] at hry2
          simp only [rlt_def]
          omega
        · intro x hx
          rcases List.mem_cons.mp hx with hx | hx
          · subst hx
            exact hpos _ (List.mem_cons_self _ _)
          · exact hpos' x hx
        · intro x hx
          rcases List.mem_cons.mp hx with hx | hx
          · subst hx
            exact ⟨x, List.mem_cons_self x rest, le_refl _, le_refl _⟩
          · obtain ⟨ry, hry, hh⟩ := hsub x hx
            exact ⟨ry, List.mem_cons_of_mem r hry, hh⟩
        · intro x hx
          rcases List.mem_cons.mp hx with hx | hx
          · subst hx
            have h1 := (rlt_def _ _).mp (hplt.1 rr hrr)
            simp only [Region.stop_def] at hrr2
            simp only [rdisj_def]
            have h2 : rr.start_page = startp := hrr1
            omega
          · exact hdisj x hx

/-- Specification of the reverse (PERSISTENT) carve. -/
theorem afp_rev_go_spec (req : Nat) (hreq : 1 ≤ req) :
    ∀ (l : List Region) (p : Nat) (l' : List Region),
    afp_rev_go req l = some (p, l') →
    l.Chain' rlt →
    (∀ r ∈ l, 1 ≤ r.pages) →
    (∃ r ∈ l, r.start_page ≤ p ∧ p + req ≤ r.stop) ∧
    l'.Chain' rlt ∧
    (∀ x ∈ l', 1 ≤ x.pages) ∧
    (∀ x ∈ l', ∃ r ∈ l, r.start_page ≤ x.start_page ∧ x.stop ≤ r.stop) ∧
    (∀ x ∈ l', rdisj ⟨p, req⟩ x) := by
  intro l
  induction l with
  | nil => intro p l' h _ _; simp [afp_rev_go] at h
  | cons r rest ih =>
    intro p l' h hchain hpos
    have hplt := List.chain'_iff_pairwise.mp hchain
    rw [List.pairwise_cons] at hplt
    rcases hrec : afp_rev_go req rest with _ | ⟨p', rest'⟩
    · simp only [afp_rev_go, hrec] at h
      by_cases hfit : req ≤ r.pages
      · rw [if_pos hfit] at h
        simp only [Option.some.injEq, Prod.mk.injEq] at h
        obtain ⟨hp, hl'⟩ := h
        by_cases hz : r.pages - req = 0
        · rw [if_pos hz] at hl'
          subst hl'
          refine ⟨⟨r, List.mem_cons_self r rest, by omega, ?_⟩,
            hchain.tail, fun x hx => hpos x (List.mem_cons_of_mem r hx),
            fun x hx => ⟨x, List.mem_cons_of_mem r hx, le_refl _, le_refl _⟩,
            fun x hx => ?_⟩
          · simp only [Region.stop_def]
            omega
          · have h1 := (rlt_def _ _).mp (hplt.1 x hx)
            simp only [rdisj_def]
            omega
        · rw [if_neg hz] at hl'
          subst hl'
          refine ⟨⟨r, List.mem_cons_self r rest, by omega, ?_⟩,
            ?_, ?_, ?_, ?_⟩
          · simp only [Region.stop_def]
            omega
          · rw [List.chain'_cons']
            refine ⟨fun y hy => ?_, hchain.tail⟩
            have h1 := (rlt_def _ _).mp (hplt.1 y (List.mem_of_mem_head? hy))
            simp only [rlt_def]
            omega
          · intro x hx
            rcases List.mem_cons.mp hx with hx | hx
            · subst hx
              simp only
              omega
            · exact hpos x (List.mem_cons_of_mem r hx)
          · intro x hx
            rcases List.mem_cons.mp hx with hx | hx
            · subst hx
              refine ⟨r, List.mem_cons_self r rest, ?_, ?_⟩ <;>
                simp only [Region.stop_def] <;> omega
            · exact ⟨x, List.mem_cons_of_mem r hx, le_refl _, le_refl _⟩
          · intro x hx
            rcases List.mem_cons.mp hx with hx | hx
            · subst hx
              simp only [rdisj_def]
              omega
            · have h1 := (rlt_def _ _).mp (hplt.1 x hx)
              simp only [rdisj_def]
              omega
      · rw [if_neg hfit] at h
        simp at h
    · simp only [afp_rev_go, hrec, Option.some.injEq, Prod.mk.injEq] at h
      obtain ⟨hp, hl'⟩ := h
      subst hp
      subst hl'
      obtain ⟨hex, hch, hpos', hsub, hdisj⟩ :=
        ih p' rest' hrec hchain.tail
          (fun x hx => hpos x (List.mem_cons_of_mem r hx))
      obtain ⟨rr, hrr, hrr1, hrr2⟩ := hex
      refine ⟨⟨rr, List.mem_cons_of_mem r hrr, hrr1, hrr2⟩, ?_, ?_, ?_, ?_⟩
      · rw [List.chain'_cons']
        refine ⟨fun y hy => ?_, hch⟩
        obtain ⟨ry, hry, hry1, hry2⟩ := hsub y (List.mem_of_mem_head? hy)
        have h1 := (rlt_def _ _).mp (hplt.1 ry hry)
        simp only [Region.stop_def] at hry2
        simp only [rlt_def]
        omega
      · intro x hx
        rcases List.mem_cons.mp hx with hx | hx
        · subst hx
          exact hpos _ (List.mem_cons_self _ _)
        · exact hpos' x hx
      · intro x hx
        rcases List.mem_cons.mp hx with hx | hx
        · subst hx
          exact ⟨x, List.mem_cons_self x rest, le_refl _, le_refl _⟩
        · obtain ⟨ry, hry, hh⟩ := hsub x hx
          exact ⟨ry, List.mem_cons_of_mem r hry, hh⟩
      · intro x hx
        rcases List.mem_cons.mp hx with hx | hx
        · subst hx
          have h1 := (rlt_def _ _).mp (hplt.1 rr hrr)
          simp only [Region.stop_def] at hrr2
          simp only [rdisj_def]
          omega
        · exact hdisj x hx

/-- Arithmetic form of rle. -/
theorem rle_def (a b : Region) :
    rle a b ↔ a.start_page + a.pages ≤ b.start_page := Iff.rfl

/-- Coverage of a cons. -/
theorem coversL_cons (r : Region) (l : List Region) (q : Nat) :
    coversL (r :: l) q ↔ r.covers q ∨ coversL l q := by
  unfold coversL
  simp

/-- Coverage of an append. -/
theorem coversL_append (l1 l2 : List Region) (q : Nat) :
    coversL (l1 ++ l2) q ↔ coversL l1 q ∨ coversL l2 q := by
  unfold coversL
  simp [List.mem_append]
  constructor
  · rintro ⟨r, hr | hr, hc⟩
    · exact Or.inl ⟨r, hr, hc⟩
    · exact Or.inr ⟨r, hr, hc⟩
  · rintro (⟨r, hr, hc⟩ | ⟨r, hr, hc⟩)
    · exact ⟨r, Or.inl hr, hc⟩
    · exact ⟨r, Or.inr hr, hc⟩

/-- The head of the dropWhile remainder fails the predicate. -/
theorem dropWhile_head_false {α : Type} (p : α → Bool) :
    ∀ (l : List α) (x : α) (xs : List α),
    l.dropWhile p = x :: xs → p x = false := by
  intro l
  induction l with
  | nil => intro x xs h; simp [List.dropWhile] at h
  | cons a t ih =>
    intro x xs h
    by_cases hp : p a
    · rw [List.dropWhile_cons_of_pos hp] at h
      exact ih x xs h
    · rw [List.dropWhile_cons_of_neg hp] at h
      cases h
      exact Bool.not_eq_true _ ▸ (Bool.eq_false_iff.mpr hp)

/-- Unfolding of the merge-pass loop on two or more records. -/
theorem mcp_go_cons_cons (fuel : Nat) (a b : Region) (rest : List Region) :
    mcp_go (fuel + 1) (a :: b :: rest) =
      if a.start_page + a.pages = b.start_page then
        mcp_go fuel (⟨a.start_page, a.pages + b.pages⟩ :: rest)
      else a :: mcp_go fuel (b :: rest) := rfl

/-- Specification of the merge pass: on a sorted list of nonempty
regions where consecutive regions may touch but not overlap, one pass
produces a sorted list of nonempty regions with strict gaps, covering
exactly the same pages. -/
theorem mcp_go_spec : ∀ (fuel : Nat) (l : List Region),
    l.length ≤ fuel →
    l.Chain' rle →
    (∀ r ∈ l, 1 ≤ r.pages) →
    (mcp_go fuel l).Chain' rlt ∧
    (∀ x ∈ mcp_go fuel l, 1 ≤ x.pages) ∧
    (∀ q, coversL (mcp_go fuel l) q ↔ coversL l q) := by
  intro fuel
  induction fuel with
  | zero =>
    intro l hlen _ _
    have : l = [] := List.length_eq_zero.mp (by omega)
    subst this
    exact ⟨List.chain'_nil, fun x hx => absurd hx (List.not_mem_nil x),
      fun q => Iff.rfl⟩
  | succ fuel ih =>
    intro l hlen hch hpos
    match l with
    | [] =>
      exact ⟨List.chain'_nil, fun x hx => absurd hx (List.not_mem_nil x),
        fun q => Iff.rfl⟩
    | [r] =>
      refine ⟨List.chain'_singleton r, ?_, fun q => Iff.rfl⟩
      intro x hx
      have hx' : x ∈ [r] := hx
      rw [List.mem_singleton] at hx'
      subst hx'
      exact hpos x (List.mem_singleton_self x)
    | a :: b :: rest =>
      have hab' := (List.chain'_cons.mp hch).1
      have hchtail := (List.chain'_cons.mp hch).2
      have hlen' : rest.length + 2 ≤ fuel + 1 := by
        simpa using hlen
      by_cases hab : a.start_page + a.pages = b.start_page
      · rw [mcp_go_cons_cons, if_pos hab]
        have hch' : (⟨a.start_page, a.pages + b.pages⟩ :: rest).Chain' rle := by
          rw [List.chain'_cons']
          refine ⟨fun y hy => ?_, hchtail.tail⟩
          have h1 := (rle_def _ _).mp
            ((List.chain'_cons'.mp hchtail).1 y hy)
          simp only [rle_def]
          omega
        have hpos' : ∀ r ∈ ⟨a.start_page, a.pages + b.pages⟩ :: rest,
            1 ≤ r.pages := by
          intro x hx
          rcases List.mem_cons.mp hx with hx | hx
          · subst hx
            have := hpos a (List.mem_cons_self _ _)
            simp only
            omega
          · exact hpos x (List.mem_cons_of_mem _ (List.mem_cons_of_mem _ hx))
        obtain ⟨h1, h2, h3⟩ := ih _ (by simp only [List.length_cons]; omega)
          hch' hpos'
        refine ⟨h1, h2, fun q => (h3 q).trans ?_⟩
        rw [coversL_cons, coversL_cons, coversL_cons]
        unfold Region.covers Region.stop
        simp only
        constructor
        · rintro (h | h)
          · rcases Nat.lt_or_ge q b.start_page with hq | hq
            · exact Or.inl ⟨h.1, by omega⟩
            · exact Or.inr (Or.inl ⟨by omega, by omega⟩)
          · exact Or.inr (Or.inr h)
        · rintro (h | h | h)
          · exact Or.inl ⟨h.1, by omega⟩
          · exact Or.inl ⟨by omega, by omega⟩
          · exact Or.inr h
      · rw [mcp_go_cons_cons, if_neg hab]
        obtain ⟨h1, h2, h3⟩ := ih (b :: rest)
          (by simp only [List.length_cons] at hlen' ⊢; omega) hchtail
          (fun x hx => hpos x (List.mem_cons_of_mem _ hx))
        have hpw := List.chain'_iff_pairwise.mp hchtail
        rw [List.pairwise_cons] at hpw
        refine ⟨?_, ?_, fun q => ?_⟩
        · rw [List.chain'_cons']
          refine ⟨fun y hy => ?_, h1⟩
          have hym : y ∈ mcp_go fuel (b :: rest) := List.mem_of_mem_head? hy
          have hyp := h2 y hym
          have hyc : coversL (b :: rest) y.start_page := by
            rw [← h3]
            refine ⟨y, hym, ?_⟩
            unfold Region.covers Region.stop
            omega
          rcases hyc with ⟨r, hr, hrc⟩
          have hrb : b.start_page ≤ r.start_page := by
            rcases List.mem_cons.mp hr with hr | hr
            · subst hr
              exact le_refl _
            · have h4 := (rle_def _ _).mp (hpw.1 r hr)
              have h5 := hpos b
                (List.mem_cons_of_mem _ (List.mem_cons_self _ _))
              omega
          have hab2 := (rle_def _ _).mp hab'
          unfold Region.covers Region.stop at hrc
          simp only [rlt_def]
          omega
        · intro x hx
          rcases List.mem_cons.mp hx with hx | hx
          · subst hx
            exact hpos _ (List.mem_cons_self _ _)
          · exact h2 x hx
        · rw [coversL_cons, coversL_cons, h3]

/-- Coverage of a singleton. -/
theorem coversL_singleton (r : Region) (q : Nat) :
    coversL [r] q ↔ r.covers q := by
  unfold coversL
  simp

/-- A strict chain is a touching-allowed chain. -/
theorem chain_rle_of_rlt {l : List Region} (h : l.Chain' rlt) :
    l.Chain' rle :=
  h.imp (fun {_ _} hab => le_of_lt hab)

/-- Specification of merged_consecutive_pages. -/
theorem merged_spec (l : List Region) (hch : l.Chain' rle)
    (hpos : ∀ r ∈ l, 1 ≤ r.pages) :
    (merged_consecutive_pages l).Chain' rlt ∧
    (∀ x ∈ merged_consecutive_pages l, 1 ≤ x.pages) ∧
    (∀ q, coversL (merged_consecutive_pages l) q ↔ coversL l q) :=
  mcp_go_spec l.length l (le_refl _) hch hpos

set_option maxHeartbeats 1000000 in
/-- Specification of restore_freed_region: inserting a nonempty
deferred record, disjoint from a sorted separated free list, yields a
sorted separated list of nonempty regions covering exactly the old
pages plus the record's pages. -/
theorem restore_spec (fr : Region) (l : List Region)
    (hch : l.Chain' rlt) (hpos : ∀ r ∈ l, 1 ≤ r.pages)
    (hfr : 1 ≤ fr.pages)
    (hdisj : ∀ r ∈ l, rdisj fr r) :
    (restore_freed_region fr l).Chain' rlt ∧
    (∀ x ∈ restore_freed_region fr l, 1 ≤ x.pages) ∧
    (∀ q, coversL (restore_freed_region fr l) q ↔
      coversL l q ∨ fr.covers q) := by
  simp only [restore_freed_region]
  set B := l.takeWhile (fun r => !(fr.start_page < r.start_page)) with hB
  set A := l.dropWhile (fun r => !(fr.start_page < r.start_page)) with hA
  have hsplit : B ++ A = l := List.takeWhile_append_dropWhile _ l
  clear_value B A
  have hBle : ∀ r ∈ B, r.start_page ≤ fr.start_page := by
    intro r hr
    rw [hB] at hr
    have := List.mem_takeWhile_imp hr
    simpa using this
  have hBsub : ∀ r ∈ B, r ∈ l := by
    intro r hr
    rw [← hsplit]
    exact List.mem_append_left _ hr
  have hAsub : ∀ r ∈ A, r ∈ l := by
    intro r hr
    rw [← hsplit]
    exact List.mem_append_right _ hr
  have hchBA : (B ++ A).Chain' rlt := by rw [hsplit]; exact hch
  have hdecomp := List.chain'_append.mp hchBA
  rcases hAe : A with _ | ⟨region, rest⟩
  · -- insert at the very end, then merge
    rw [hAe] at hsplit
    rw [List.append_nil] at hsplit
    have hchle : (l ++ [fr]).Chain' rle := by
      rw [List.chain'_append]
      refine ⟨chain_rle_of_rlt hch, List.chain'_singleton fr, ?_⟩
      intro x hx y hy
      have hxl : x ∈ l := List.mem_of_mem_getLast? hx
      have hyfr : fr = y := by simpa using hy
      subst hyfr
      have h1 := hBle x (hsplit ▸ hxl)
      have h2 := hdisj x hxl
      simp only [rle_def]
      simp only [rdisj_def] at h2
      omega
    have hpos' : ∀ r ∈ l ++ [fr], 1 ≤ r.pages := by
      intro x hx
      rcases List.mem_append.mp hx with hx | hx
      · exact hpos x hx
      · rw [List.mem_singleton] at hx
        subst hx
        exact hfr
    obtain ⟨h1, h2, h3⟩ := merged_spec _ hchle hpos'
    refine ⟨h1, h2, fun q => (h3 q).trans ?_⟩
    rw [coversL_append, coversL_singleton]
  · -- there is a region past fr's start
    have hregmem : region ∈ l := hAsub region (by rw [hAe]; exact List.mem_cons_self _ _)
    have hfrreg : fr.start_page < region.start_page := by
      have := dropWhile_head_false _ l region rest (hA ▸ hAe)
      simpa using this
    have hfrlt_reg : fr.start_page + fr.pages ≤ region.start_page := by
      have h2 := hdisj region hregmem
      have h3 := hpos region hregmem
      simp only [rdisj_def] at h2
      omega
    have hchA : (region :: rest).Chain' rlt := hAe ▸ hdecomp.2.1
    rcases hBl : B.getLast? with _ | prev
    · -- before is empty: insert at the front
      dsimp only
      have hBnil : B = [] := List.getLast?_eq_none_iff.mp hBl
      rw [hBnil, List.nil_append] at hsplit
      rw [hAe] at hsplit
      by_cases hc2 : fr.start_page + fr.pages = region.start_page
      · rw [if_pos hc2]
        have hchle : (Region.mk fr.start_page (region.pages + fr.pages) :: rest).Chain' rle := by
          rw [List.chain'_cons']
          refine ⟨fun y hy => ?_, chain_rle_of_rlt hchA.tail⟩
          have h1 := (rlt_def _ _).mp
            ((List.chain'_cons'.mp hchA).1 y hy)
          simp only [rle_def]
          omega
        have hpos' : ∀ r ∈ Region.mk fr.start_page (region.pages + fr.pages) :: rest,
            1 ≤ r.pages := by
          intro x hx
          rcases List.mem_cons.mp hx with hx | hx
          · subst hx
            simp only
            have := hpos region hregmem
            omega
          · exact hpos x (hsplit ▸ List.mem_cons_of_mem _ hx)
        obtain ⟨h1, h2, h3⟩ := merged_spec _ hchle hpos'
        refine ⟨h1, h2, fun q => (h3 q).trans ?_⟩
        rw [← hsplit, coversL_cons, coversL_cons]
        unfold Region.covers Region.stop
        simp only
        constructor
        · rintro (h | h)
          · rcases Nat.lt_or_ge q region.start_page with hq | hq
            · exact Or.inr ⟨h.1, by omega⟩
            · exact Or.inl (Or.inl ⟨by omega, by omega⟩)
          · exact Or.inl (Or.inr h)
        · rintro ((h | h) | h)
          · exact Or.inl ⟨by omega, by omega⟩
          · exact Or.inr h
          · exact Or.inl ⟨h.1, by omega⟩
      · rw [if_neg hc2]
        refine ⟨?_, ?_, fun q => ?_⟩
        · rw [List.chain'_cons']
          refine ⟨fun y hy => ?_, hchA⟩
          have hyreg : region = y := by
            rw [List.head?_cons] at hy
            simpa using hy
          subst hyreg
          simp only [rlt_def]
          omega
        · intro x hx
          rcases List.mem_cons.mp hx with hx | hx
          · subst hx
            exact hfr
          · exact hpos x (hsplit ▸ hx)
        · rw [coversL_cons, ← hsplit]
          tauto
    · -- before has a last region prev
      have hBne : B ≠ [] := by
        intro he
        rw [he] at hBl
        simp at hBl
      have hprevmem : prev ∈ B := List.mem_of_mem_getLast? (by rw [hBl]; rfl)
      have hBdec : B.dropLast ++ [prev] = B := by
        rcases List.mem_getLast?_eq_getLast (x := prev) (l := B)
          (by rw [hBl]; rfl) with ⟨hne, he⟩
        rw [he]
        exact List.dropLast_append_getLast hne
      have hprevle := hBle prev hprevmem
      have hprevdisj := hdisj prev (hBsub prev hprevmem)
      dsimp only
      have hprevstop : prev.start_page + prev.pages ≤ fr.start_page := by
        simp only [rdisj_def] at hprevdisj
        omega
      rw [hAe] at hsplit
      have hchB : B.Chain' rlt := hdecomp.1
      have hBdecomp := List.chain'_append.mp (hBdec ▸ hchB)
      have hlinkDL : ∀ x ∈ B.dropLast.getLast?, rlt x prev := by
        intro x hx
        exact hBdecomp.2.2 x hx prev (by rfl)
      have hprevreg : rlt prev region :=
        hdecomp.2.2 prev (by rw [hBl]; rfl) region (by rw [hAe]; rfl)
      have hDLsub : ∀ x ∈ B.dropLast, x ∈ l := by
        intro x hx
        exact hBsub x (List.dropLast_subset B hx)
      have hrestsub : ∀ x ∈ rest, x ∈ l := by
        intro x hx
        exact hAsub x (by rw [hAe]; exact List.mem_cons_of_mem _ hx)
      by_cases hc1 : prev.start_page + prev.pages = fr.start_page
      · rw [if_pos hc1]
        have hchle : (B.dropLast ++
            Region.mk prev.start_page (prev.pages + fr.pages) ::
              region :: rest).Chain' rle := by
          rw [List.chain'_append]
          refine ⟨chain_rle_of_rlt hBdecomp.1, ?_, ?_⟩
          · rw [List.chain'_cons']
            refine ⟨fun y hy => ?_, chain_rle_of_rlt hchA⟩
            have hyreg : region = y := by simpa using hy
            subst hyreg
            simp only [rle_def]
            omega
          · intro x hx y hy
            have hyv : Region.mk prev.start_page (prev.pages + fr.pages)
                = y := by simpa using hy
            subst hyv
            have h1 := (rlt_def _ _).mp (hlinkDL x hx)
            simp only [rle_def]
            omega
        have hpos' : ∀ r ∈ B.dropLast ++
            Region.mk prev.start_page (prev.pages + fr.pages) ::
              region :: rest, 1 ≤ r.pages := by
          intro x hx
          rcases List.mem_append.mp hx with hx | hx
          · exact hpos x (hDLsub x hx)
          · rcases List.mem_cons.mp hx with hx | hx
            · subst hx
              simp only
              omega
            · rcases List.mem_cons.mp hx with hx | hx
              · subst hx
                exact hpos _ hregmem
              · exact hpos x (hrestsub x hx)
        obtain ⟨h1, h2, h3⟩ := merged_spec _ hchle hpos'
        refine ⟨h1, h2, fun q => (h3 q).trans ?_⟩
        have hnp : (Region.mk prev.start_page (prev.pages + fr.pages)).covers q
            ↔ prev.covers q ∨ fr.covers q := by
          unfold Region.covers Region.stop
          simp only
          omega
        have hcovB : coversL B q ↔ coversL B.dropLast q ∨ prev.covers q := by
          conv_lhs => rw [← hBdec]
          rw [coversL_append, coversL_singleton]
        rw [coversL_append, coversL_cons, coversL_cons, hnp, ← hsplit,
          coversL_append, coversL_cons, hcovB]
        tauto
      · by_cases hc2 : fr.start_page + fr.pages = region.start_page
        · rw [if_neg hc1, if_pos hc2]
          have hchle : (B ++ Region.mk fr.start_page
              (region.pages + fr.pages) :: rest).Chain' rle := by
            rw [List.chain'_append]
            refine ⟨chain_rle_of_rlt hchB, ?_, ?_⟩
            · rw [List.chain'_cons']
              refine ⟨fun y hy => ?_, chain_rle_of_rlt hchA.tail⟩
              have h1 := (rlt_def _ _).mp ((List.chain'_cons'.mp hchA).1 y hy)
              simp only [rle_def]
              omega
            · intro x hx y hy
              have hyv : Region.mk fr.start_page (region.pages + fr.pages)
                  = y := by simpa using hy
              subst hyv
              have hxp : prev = x := by
                rw [hBl] at hx
                simpa using hx
              subst hxp
              simp only [rle_def]
              omega
          have hpos' : ∀ r ∈ B ++ Region.mk fr.start_page
              (region.pages + fr.pages) :: rest, 1 ≤ r.pages := by
            intro x hx
            rcases List.mem_append.mp hx with hx | hx
            · exact hpos x (hBsub x hx)
            · rcases List.mem_cons.mp hx with hx | hx
              · subst hx
                simp only
                omega
              · exact hpos x (hrestsub x hx)
          obtain ⟨h1, h2, h3⟩ := merged_spec _ hchle hpos'
          refine ⟨h1, h2, fun q => (h3 q).trans ?_⟩
          have hnp : (Region.mk fr.start_page
              (region.pages + fr.pages)).covers q
              ↔ region.covers q ∨ fr.covers q := by
            unfold Region.covers Region.stop
            simp only
            omega
          rw [coversL_append, coversL_cons, hnp, ← hsplit, coversL_append,
            coversL_cons]
          tauto
        · rw [if_neg hc1, if_neg hc2]
          refine ⟨?_, ?_, fun q => ?_⟩
          · rw [List.chain'_append]
            refine ⟨hchB, ?_, ?_⟩
            · rw [List.chain'_cons']
              refine ⟨fun y hy => ?_, hchA⟩
              have hyreg : region = y := by simpa using hy
              subst hyreg
              simp only [rlt_def]
              omega
            · intro x hx y hy
              have hyv : fr = y := by simpa using hy
              subst hyv
              have hxp : prev = x := by
                rw [hBl] at hx
                simpa using hx
              subst hxp
              simp only [rlt_def]
              omega
          · intro x hx
            rcases List.mem_append.mp hx with hx | hx
            · exact hpos x (hBsub x hx)
            · rcases List.mem_cons.mp hx with hx | hx
              · subst hx
                exact hfr
              · rcases List.mem_cons.mp hx with hx | hx
                · subst hx
                  exact hpos _ hregmem
                · exact hpos x (hrestsub x hx)
          · rw [coversL_append, coversL_cons, coversL_cons, ← hsplit,
              coversL_append, coversL_cons]
            tauto

/-- Draining a list of nonempty, pairwise disjoint records, all
disjoint from a sorted separated free list, yields a sorted separated
list of nonempty regions covering exactly the old pages plus the
records' pages. -/
theorem restore_fold_spec : ∀ (frs : List Region) (l : List Region),
    l.Chain' rlt →
    (∀ r ∈ l, 1 ≤ r.pages) →
    (∀ fr ∈ frs, 1 ≤ fr.pages) →
    frs.Pairwise rdisj →
    (∀ fr ∈ frs, ∀ r ∈ l, rdisj fr r) →
    (frs.foldl (fun acc fr => restore_freed_region fr acc) l).Chain' rlt ∧
    (∀ x ∈ frs.foldl (fun acc fr => restore_freed_region fr acc) l,
      1 ≤ x.pages) ∧
    (∀ q, coversL (frs.foldl (fun acc fr => restore_freed_region fr acc) l) q
      ↔ coversL l q ∨ coversL frs q) := by
  intro frs
  induction frs with
  | nil =>
    intro l hch hpos _ _ _
    refine ⟨hch, hpos, fun q => ?_⟩
    simp [coversL]
  | cons fr rest ih =>
    intro l hch hpos hfpos hfpw hfdisj
    have hfr1 : 1 ≤ fr.pages := hfpos fr (List.mem_cons_self _ _)
    obtain ⟨h1, h2, h3⟩ := restore_spec fr l hch hpos hfr1
      (fun r hr => hfdisj fr (List.mem_cons_self _ _) r hr)
    rw [List.pairwise_cons] at hfpw
    have hdisj' : ∀ g ∈ rest, ∀ r ∈ restore_freed_region fr l, rdisj g r := by
      intro g hg r hr
      refine rdisj_of_coversL (l := l ++ [fr])
        (hfpos g (List.mem_cons_of_mem _ hg))
        (h2 r hr) (fun p hp => ?_) ?_
      · show coversL (l ++ [fr]) p
        rw [coversL_append, coversL_singleton]
        rw [← h3 p]
        exact ⟨r, hr, hp⟩
      · intro x hx
        rcases List.mem_append.mp hx with hx | hx
        · exact hfdisj g (List.mem_cons_of_mem _ hg) x hx
        · rw [List.mem_singleton] at hx
          subst hx
          exact rdisj_symm (hfpw.1 g hg)
    obtain ⟨g1, g2, g3⟩ := ih (restore_freed_region fr l) h1 h2
      (fun x hx => hfpos x (List.mem_cons_of_mem _ hx)) hfpw.2 hdisj'
    refine ⟨g1, g2, fun q => (g3 q).trans ?_⟩
    rw [h3 q, coversL_cons]
    tauto

/-- The deferred-free drain preserves well-formedness, leaving the
deferred list empty and the metadata untouched. -/
theorem restore_all_WF (s : AllocState) (h : LMWF s) :
    LMWF ⟨restore_all_freed_memories s.lm, s.live, s.total⟩ := by
  obtain ⟨f1, f2, f3⟩ := restore_fold_spec s.lm.freed s.lm.free h.free_chain
    h.free_pos h.freed_pos h.freed_pw
    (fun fr hf r hr => rdisj_symm (h.free_freed r hr fr hf))
  have hfree' : (restore_all_freed_memories s.lm).free =
      s.lm.freed.foldl (fun acc fr => restore_freed_region fr acc)
        s.lm.free := rfl
  have hlox : ∀ x ∈ (restore_all_freed_memories s.lm).free,
      1 ≤ x.start_page ∧ x.stop ≤ s.total := by
    intro x hx
    rw [hfree'] at hx
    have hx1 := f2 x hx
    have hcs : coversL s.lm.free x.start_page ∨
        coversL s.lm.freed x.start_page := by
      rw [← f3]
      exact ⟨x, hx, by unfold Region.covers Region.stop; omega⟩
    have hce : coversL s.lm.free (x.stop - 1) ∨
        coversL s.lm.freed (x.stop - 1) := by
      rw [← f3]
      exact ⟨x, hx, by unfold Region.covers Region.stop at *; omega⟩
    constructor
    · rcases hcs with ⟨r, hr, hc⟩ | ⟨r, hr, hc⟩
      · have := h.free_lo r hr
        unfold Region.covers at hc
        omega
      · have := h.freed_lo r hr
        unfold Region.covers at hc
        omega
    · rcases hce with ⟨r, hr, hc⟩ | ⟨r, hr, hc⟩
      · have := h.free_hi r hr
        unfold Region.covers Region.stop at *
        omega
      · have := h.freed_hi r hr
        unfold Region.covers Region.stop at *
        omega
  refine ⟨h.total_lo, h.total_hi, f1, f2,
    fun r hr => (hlox r hr).1, fun r hr => (hlox r hr).2,
    fun r hr => absurd hr (List.not_mem_nil r),
    fun r hr => absurd hr (List.not_mem_nil r),
    fun r hr => absurd hr (List.not_mem_nil r),
    h.live_pos, h.live_lo, h.live_hi,
    List.Pairwise.nil, h.live_pw,
    fun r hr f hf => absurd hf (List.not_mem_nil f),
    ?_,
    fun f hf => absurd hf (List.not_mem_nil f),
    h.meta_lo, h.meta_le, h.meta_ext⟩
  intro r hr a ha
  rw [hfree'] at hr
  refine rdisj_symm (rdisj_of_coversL (l := s.lm.free ++ s.lm.freed)
    (h.live_pos a ha) (f2 r hr)
    (fun p hp => ?_) ?_)
  · show coversL (s.lm.free ++ s.lm.freed) p
    rw [coversL_append, ← f3]
    exact ⟨r, hr, hp⟩
  · intro x hx
    rcases List.mem_append.mp hx with hx | hx
    · exact rdisj_symm (h.free_live x hx a ha)
    · exact rdisj_symm (h.freed_live x hx a ha)

/-- The byte at the first page of a freshly marked run. -/
theorem mget_mark_self (m : MetaBytes) (p n : Nat) (hp : p + 8 < 2 ^ 64) :
    mget (mark_alloced_pages m p n) p = if n < 255 then n else 255 := by
  unfold mark_alloced_pages
  by_cases h255 : n < 255
  · rw [if_pos h255, if_pos h255, mget_mset_self]
  · have hb := fm_roundup_4_bounds (p + 1) (by omega)
    rw [if_neg h255, if_neg h255,
      mget_write32_outside _ _ _ _ (by omega), mget_mset_self]

/-- Carving a run of req pages out of one free region preserves
well-formedness: the new run becomes live and is recorded in the
metadata, everything else is untouched. The hypotheses are exactly the
conclusions of the carve specifications. -/
theorem carve_success_WF (s : AllocState) (hWF : LMWF s) (req p : Nat)
    (fl : List Region) (hreq : 1 ≤ req)
    (hex : ∃ r ∈ s.lm.free, r.start_page ≤ p ∧ p + req ≤ r.stop)
    (hch : fl.Chain' rlt) (hfpos : ∀ x ∈ fl, 1 ≤ x.pages)
    (hsub : ∀ x ∈ fl, ∃ r ∈ s.lm.free,
      r.start_page ≤ x.start_page ∧ x.stop ≤ r.stop)
    (hdisj : ∀ x ∈ fl, rdisj ⟨p, req⟩ x) :
    LMWF ⟨⟨fl, s.lm.freed, mark_alloced_pages s.lm.meta p req⟩,
      ⟨p, req⟩ :: s.live, s.total⟩ := by
  obtain ⟨r0, hr0, hr0a, hr0b⟩ := hex
  have htot := hWF.total_hi
  have hp1 : 1 ≤ p := le_trans (hWF.free_lo r0 hr0) hr0a
  have hptot : p + req ≤ s.total := by
    have := hWF.free_hi r0 hr0
    simp only [Region.stop_def] at *
    omega
  have hp8 : p + 8 < 2 ^ 64 := by omega
  have hcdl : ∀ a ∈ s.live, rdisj ⟨p, req⟩ a := by
    intro a ha
    refine rdisj_of_sub hr0a ?_ (hWF.free_live r0 hr0 a ha)
    simp only [Region.stop_def] at *
    omega
  have hcdf : ∀ f ∈ s.lm.freed, rdisj ⟨p, req⟩ f := by
    intro f hf
    refine rdisj_of_sub hr0a ?_ (hWF.free_freed r0 hr0 f hf)
    simp only [Region.stop_def] at *
    omega
  have hmetab : ∀ b ∈ s.live,
      fetch_alloced_pages (mark_alloced_pages s.lm.meta p req) b.start_page =
        fetch_alloced_pages s.lm.meta b.start_page ∧
      mget (mark_alloced_pages s.lm.meta p req) b.start_page =
        mget s.lm.meta b.start_page := by
    intro b hb
    have hbtot := hWF.live_hi b hb
    have hbpos := hWF.live_pos b hb
    refine fetch_mark_frame s.lm.meta p req b hreq hp8 ?_ hbpos ?_
      (hWF.meta_ext b hb)
    · simp only [Region.stop_def] at *
      omega
    · have := hcdl b hb
      simp only [rdisj_def] at this
      simp only [Region.stop_def]
      omega
  have hflo : ∀ x ∈ fl, 1 ≤ x.start_page := by
    intro x hx
    obtain ⟨r, hr, h1, _⟩ := hsub x hx
    have := hWF.free_lo r hr
    omega
  have hfhi : ∀ x ∈ fl, x.stop ≤ s.total := by
    intro x hx
    obtain ⟨r, hr, _, h2⟩ := hsub x hx
    have := hWF.free_hi r hr
    omega
  refine ⟨hWF.total_lo, hWF.total_hi, hch, hfpos, hflo, hfhi,
    hWF.freed_pos, hWF.freed_lo, hWF.freed_hi,
    ?_, ?_, ?_, hWF.freed_pw, ?_, ?_, ?_, ?_, ?_, ?_, ?_⟩
  · intro r hr
    rcases List.mem_cons.mp hr with hr | hr
    · subst hr
      exact hreq
    · exact hWF.live_pos r hr
  · intro r hr
    rcases List.mem_cons.mp hr with hr | hr
    · subst hr
      exact hp1
    · exact hWF.live_lo r hr
  · intro r hr
    rcases List.mem_cons.mp hr with hr | hr
    · subst hr
      simp only [Region.stop_def]
      exact hptot
    · exact hWF.live_hi r hr
  · rw [List.pairwise_cons]
    exact ⟨hcdl, hWF.live_pw⟩
  · intro r hr f hf
    obtain ⟨rr, hrr, h1, h2⟩ := hsub r hr
    exact rdisj_of_sub h1 h2 (hWF.free_freed rr hrr f hf)
  · intro r hr a ha
    rcases List.mem_cons.mp ha with ha | ha
    · subst ha
      exact rdisj_symm (hdisj r hr)
    · obtain ⟨rr, hrr, h1, h2⟩ := hsub r hr
      exact rdisj_of_sub h1 h2 (hWF.free_live rr hrr a ha)
  · intro f hf a ha
    rcases List.mem_cons.mp ha with ha | ha
    · subst ha
      exact rdisj_symm (hcdf f hf)
    · exact hWF.freed_live f hf a ha
  · intro a ha
    rcases List.mem_cons.mp ha with ha | ha
    · subst ha
      rw [fetch_mark_self _ _ _ hp8 (by omega)]
      exact hreq
    · rw [(hmetab a ha).1]
      exact hWF.meta_lo a ha
  · intro a ha
    rcases List.mem_cons.mp ha with ha | ha
    · subst ha
      rw [fetch_mark_self _ _ _ hp8 (by omega)]
    · rw [(hmetab a ha).1]
      exact hWF.meta_le a ha
  · intro a ha
    rcases List.mem_cons.mp ha with ha | ha
    · subst ha
      rw [mget_mark_self _ _ _ hp8]
      by_cases h255 : req < 255
      · rw [if_pos h255]
        intro hcon
        omega
      · rw [if_neg h255]
        intro _
        have hb := fm_roundup_4_bounds (p + 1) (by omega)
        simp only [Region.stop_def]
        omega
    · rw [(hmetab a ha).2]
      intro hcon
      exact hWF.meta_ext a ha hcon

/-- Either direction of the allocation scan on a well-formed free list
either fails leaving the list unchanged, or carves a run satisfying
the carve specification. -/
theorem lm_alloc_spec (req t : Nat) (hreq : 1 ≤ req) (l : List Region)
    (hch : l.Chain' rlt) (hpos : ∀ r ∈ l, 1 ≤ r.pages)
    (hlo : ∀ r ∈ l, 1 ≤ r.start_page) :
    lm_alloc req t l = (0, l) ∨
    (∃ p fl, lm_alloc req t l = (p, fl) ∧ 1 ≤ p ∧
      (∃ r ∈ l, r.start_page ≤ p ∧ p + req ≤ r.stop) ∧
      fl.Chain' rlt ∧ (∀ x ∈ fl, 1 ≤ x.pages) ∧
      (∀ x ∈ fl, ∃ r ∈ l, r.start_page ≤ x.start_page ∧ x.stop ≤ r.stop) ∧
      (∀ x ∈ fl, rdisj ⟨p, req⟩ x)) := by
  unfold lm_alloc
  by_cases ht : t = FM_LM_T_TRANSIENT
  · rw [if_pos ht]
    unfold alloc_free_pages
    rcases hgo : afp_go req l with _ | ⟨p, fl⟩
    · exact Or.inl rfl
    · obtain ⟨hex, hch', hpos', hsub, hdisj⟩ :=
        afp_go_spec req hreq l p fl hgo hch hpos
      refine Or.inr ⟨p, fl, rfl, ?_, hex, hch', hpos', hsub, hdisj⟩
      obtain ⟨r, hr, h1, _⟩ := hex
      have := hlo r hr
      omega
  · rw [if_neg ht]
    unfold alloc_free_pages_reverse
    rcases hgo : afp_rev_go req l with _ | ⟨p, fl⟩
    · exact Or.inl rfl
    · obtain ⟨hex, hch', hpos', hsub, hdisj⟩ :=
        afp_rev_go_spec req hreq l p fl hgo hch hpos
      refine Or.inr ⟨p, fl, rfl, ?_, hex, hch', hpos', hsub, hdisj⟩
      obtain ⟨r, hr, h1, _⟩ := hex
      have := hlo r hr
      omega

/-- One fm_lm_malloc call with a request of at least one page preserves
well-formedness of the trace state. -/
theorem malloc_step_WF (size t : Nat) (s : AllocState) (hWF : LMWF s)
    (hpos : 1 ≤ fm_roundup size FM_PAGE_SIZE / FM_PAGE_SIZE) :
    LMWF (malloc_step size t s) := by
  rcases lm_alloc_spec (fm_roundup size FM_PAGE_SIZE / FM_PAGE_SIZE) t hpos
    s.lm.free hWF.free_chain hWF.free_pos hWF.free_lo with hz |
    ⟨p, fl, he, hp1, hex, hch, hpos', hsub, hdisj⟩
  · have hWF1 := restore_all_WF s hWF
    rcases lm_alloc_spec (fm_roundup size FM_PAGE_SIZE / FM_PAGE_SIZE) t hpos
      (restore_all_freed_memories s.lm).free hWF1.free_chain hWF1.free_pos
      hWF1.free_lo with hz2 |
      ⟨p, fl, he, hp1, hex, hch, hpos', hsub, hdisj⟩
    · have hm := fm_lm_malloc_both_fail size t s.lm s.lm.free
        (restore_all_freed_memories s.lm).free hz hz2
      unfold malloc_step
      rw [hm]
      exact hWF1
    · have hm := fm_lm_malloc_retry_success size t s.lm s.lm.free p fl hz he
        (by omega)
      unfold malloc_step
      rw [hm]
      have hcs := carve_success_WF ⟨restore_all_freed_memories s.lm, s.live,
        s.total⟩ hWF1 (fm_roundup size FM_PAGE_SIZE / FM_PAGE_SIZE) p fl hpos
        hex hch hpos' hsub hdisj
      exact hcs
  · have hm := fm_lm_malloc_first_success size t s.lm p fl he (by omega)
    unfold malloc_step
    rw [hm]
    exact carve_success_WF s hWF
      (fm_roundup size FM_PAGE_SIZE / FM_PAGE_SIZE) p fl hpos hex hch hpos'
      hsub hdisj

/-- In a pairwise-disjoint list, an erased element is disjoint from
every remaining element. -/
theorem erase_pairwise_disj (l : List Region) (a : Region)
    (hpw : l.Pairwise rdisj) (ha : a ∈ l) :
    ∀ y ∈ l.erase a, rdisj a y := by
  obtain ⟨l1, l2, _, hl, he⟩ := List.exists_erase_eq ha
  subst hl
  intro y hy
  rw [he] at hy
  rw [List.pairwise_append] at hpw
  rcases List.mem_append.mp hy with hy1 | hy2
  · exact rdisj_symm (hpw.2.2 y hy1 a (List.mem_cons_self _ _))
  · exact (List.pairwise_cons.mp hpw.2.1).1 y hy2

/-- One fm_lm_free call on a live allocation preserves well-formedness
of the trace state. -/
theorem free_step_WF (a : Region) (s : AllocState) (hWF : LMWF s)
    (ha : a ∈ s.live) : LMWF (free_step a s) := by
  have hk1 := hWF.meta_lo a ha
  have hk2 := hWF.meta_le a ha
  have hapos := hWF.live_pos a ha
  have halo := hWF.live_lo a ha
  have hahi := hWF.live_hi a ha
  have hmem : ∀ y ∈ s.live.erase a, y ∈ s.live :=
    fun y hy => List.mem_of_mem_erase hy
  have hsubf : (⟨a.start_page,
      fetch_alloced_pages s.lm.meta a.start_page⟩ : Region).stop ≤
      a.stop := by
    simp only [Region.stop_def]
    omega
  have hfx : ∀ x : Region, rdisj a x →
      rdisj ⟨a.start_page, fetch_alloced_pages s.lm.meta a.start_page⟩ x :=
    fun x hx => rdisj_of_sub (le_refl a.start_page) hsubf hx
  unfold free_step fm_lm_free
  exact {
    total_lo := hWF.total_lo
    total_hi := hWF.total_hi
    free_chain := hWF.free_chain
    free_pos := hWF.free_pos
    free_lo := hWF.free_lo
    free_hi := hWF.free_hi
    freed_pos := by
      intro r hr
      rcases List.mem_append.mp hr with h | h
      · exact hWF.freed_pos r h
      · simp at h
        subst h
        exact hk1
    freed_lo := by
      intro r hr
      rcases List.mem_append.mp hr with h | h
      · exact hWF.freed_lo r h
      · simp at h
        subst h
        exact halo
    freed_hi := by
      intro r hr
      rcases List.mem_append.mp hr with h | h
      · exact hWF.freed_hi r h
      · simp at h
        subst h
        exact le_trans hsubf hahi
    live_pos := fun r hr => hWF.live_pos r (hmem r hr)
    live_lo := fun r hr => hWF.live_lo r (hmem r hr)
    live_hi := fun r hr => hWF.live_hi r (hmem r hr)
    freed_pw := by
      rw [List.pairwise_append]
      refine ⟨hWF.freed_pw, List.pairwise_singleton _ _, ?_⟩
      intro x hx y hy
      simp at hy
      subst hy
      exact rdisj_symm (hfx x (rdisj_symm (hWF.freed_live x hx a ha)))
    live_pw := hWF.live_pw.sublist (List.erase_sublist a s.live)
    free_freed := by
      intro r hr f hf
      rcases List.mem_append.mp hf with h | h
      · exact hWF.free_freed r hr f h
      · simp at h
        subst h
        exact rdisj_symm (hfx r (rdisj_symm (hWF.free_live r hr a ha)))
    free_live := fun r hr y hy => hWF.free_live r hr y (hmem y hy)
    freed_live := by
      intro f hf y hy
      rcases List.mem_append.mp hf with h | h
      · exact hWF.freed_live f h y (hmem y hy)
      · simp at h
        subst h
        exact hfx y (erase_pairwise_disj s.live a hWF.live_pw ha y hy)
    meta_lo := fun y hy => hWF.meta_lo y (hmem y hy)
    meta_le := fun y hy => hWF.meta_le y (hmem y hy)
    meta_ext := fun y hy => hWF.meta_ext y (hmem y hy) }

/-- Rounding up to a page boundary is idempotent. -/
theorem fm_roundup_idem (x : Nat) :
    fm_roundup (fm_roundup x 4096) 4096 = fm_roundup x 4096 := by
  unfold fm_roundup
  rw [show (4096 - 1 : Nat) = 4095 from rfl, and_4095_eq_mod,
    and_4095_eq_mod]
  omega

/-- Well-formedness after a successful in-place realloc extension: the
designated carve took the pages right after the run out of the free
list, the ghost run grows to np pages, and the metadata is untouched
(the code omits the re-marking; meta_le still holds because the stale
count is below the new length). -/
theorem realloc_inplace_WF (s : AllocState) (hWF : LMWF s) (a : Region)
    (ha : a ∈ s.live) (np : Nat) (fl0 : List Region) (r : Region)
    (hr : r ∈ s.lm.free)
    (hrs : r.start_page =
      a.start_page + fetch_alloced_pages s.lm.meta a.start_page)
    (hrstop : a.start_page + np ≤ r.stop)
    (hlt : fetch_alloced_pages s.lm.meta a.start_page < np)
    (hch : fl0.Chain' rlt) (hposl : ∀ x ∈ fl0, 1 ≤ x.pages)
    (hsub : ∀ x ∈ fl0, ∃ q ∈ s.lm.free,
      q.start_page ≤ x.start_page ∧ x.stop ≤ q.stop)
    (hdisj : ∀ x ∈ fl0, rdisj
      ⟨a.start_page + fetch_alloced_pages s.lm.meta a.start_page,
        np - fetch_alloced_pages s.lm.meta a.start_page⟩ x) :
    LMWF ⟨⟨fl0, s.lm.freed, s.lm.meta⟩,
      ⟨a.start_page, np⟩ :: s.live.erase a, s.total⟩ := by
  have hk1 := hWF.meta_lo a ha
  have hk2 := hWF.meta_le a ha
  have hapos := hWF.live_pos a ha
  have halo := hWF.live_lo a ha
  have hahi := hWF.live_hi a ha
  have hrpos := hWF.free_pos r hr
  have hrhi := hWF.free_hi r hr
  have hmem : ∀ y ∈ s.live.erase a, y ∈ s.live :=
    fun y hy => List.mem_of_mem_erase hy
  have hka : fetch_alloced_pages s.lm.meta a.start_page = a.pages := by
    have h1 := hWF.free_live r hr a ha
    simp only [rdisj_def, Region.stop_def] at h1
    omega
  exact {
    total_lo := hWF.total_lo
    total_hi := hWF.total_hi
    free_chain := hch
    free_pos := hposl
    free_lo := by
      intro x hx
      obtain ⟨q, hq, h1, _⟩ := hsub x hx
      have := hWF.free_lo q hq
      omega
    free_hi := by
      intro x hx
      obtain ⟨q, hq, _, h2⟩ := hsub x hx
      have := hWF.free_hi q hq
      show x.stop ≤ s.total
      simp only [Region.stop_def] at h2 this ⊢
      omega
    freed_pos := hWF.freed_pos
    freed_lo := hWF.freed_lo
    freed_hi := hWF.freed_hi
    live_pos := by
      intro y hy
      rcases List.mem_cons.mp hy with h | h
      · subst h; simp only [Region.stop_def]; omega
      · exact hWF.live_pos y (hmem y h)
    live_lo := by
      intro y hy
      rcases List.mem_cons.mp hy with h | h
      · subst h; simpa using halo
      · exact hWF.live_lo y (hmem y h)
    live_hi := by
      intro y hy
      rcases List.mem_cons.mp hy with h | h
      · subst h
        show (⟨a.start_page, np⟩ : Region).stop ≤ s.total
        simp only [Region.stop_def] at hrstop hrhi ⊢
        omega
      · exact hWF.live_hi y (hmem y h)
    freed_pw := hWF.freed_pw
    live_pw := by
      rw [List.pairwise_cons]
      refine ⟨?_, hWF.live_pw.sublist (List.erase_sublist a s.live)⟩
      intro y hy
      have hay := erase_pairwise_disj s.live a hWF.live_pw ha y hy
      have hry := hWF.free_live r hr y (hmem y hy)
      have hypos := hWF.live_pos y (hmem y hy)
      simp only [rdisj_def, Region.stop_def] at hay hry hrstop ⊢
      omega
    free_freed := by
      intro x hx f hf
      obtain ⟨q, hq, h1, h2⟩ := hsub x hx
      exact rdisj_of_sub h1 h2 (hWF.free_freed q hq f hf)
    free_live := by
      intro x hx y hy
      rcases List.mem_cons.mp hy with h | h
      · subst h
        have hd := hdisj x hx
        obtain ⟨q, hq, h1, h2⟩ := hsub x hx
        have hqa := hWF.free_live q hq a ha
        have hxpos := hposl x hx
        simp only [rdisj_def, Region.stop_def] at hd hqa h2 hrstop ⊢
        omega
      · obtain ⟨q, hq, h1, h2⟩ := hsub x hx
        exact rdisj_of_sub h1 h2 (hWF.free_live q hq y (hmem y h))
    freed_live := by
      intro f hf y hy
      rcases List.mem_cons.mp hy with h | h
      · subst h
        have hfa := hWF.freed_live f hf a ha
        have hrf := hWF.free_freed r hr f hf
        have hfpos := hWF.freed_pos f hf
        simp only [rdisj_def, Region.stop_def] at hfa hrf hrstop ⊢
        omega
      · exact hWF.freed_live f hf y (hmem y h)
    meta_lo := by
      intro y hy
      rcases List.mem_cons.mp hy with h | h
      · subst h; simpa using hk1
      · exact hWF.meta_lo y (hmem y h)
    meta_le := by
      intro y hy
      rcases List.mem_cons.mp hy with h | h
      · subst h
        simp only
        omega
      · exact hWF.meta_le y (hmem y h)
    meta_ext := by
      intro y hy
      rcases List.mem_cons.mp hy with h | h
      · subst h
        intro htrig
        have := hWF.meta_ext a ha htrig
        simp only [Region.stop_def] at this ⊢
        omega
      · exact hWF.meta_ext y (hmem y h) }

/-- Page-unit form of roundup idempotence. -/
theorem fm_roundup_idem_page (x : Nat) :
    fm_roundup (fm_roundup x FM_PAGE_SIZE) FM_PAGE_SIZE =
      fm_roundup x FM_PAGE_SIZE := fm_roundup_idem x

/-- One fm_lm_realloc call on a live allocation preserves
well-formedness of the trace state. -/
theorem realloc_step_WF (a : Region) (size t : Nat) (s : AllocState)
    (hWF : LMWF s) (ha : a ∈ s.live) : LMWF (realloc_step a size t s) := by
  have hk1 := hWF.meta_lo a ha
  have halo := hWF.live_lo a ha
  have hapos := hWF.live_pos a ha
  by_cases hle : fm_roundup size FM_PAGE_SIZE / FM_PAGE_SIZE ≤
      fetch_alloced_pages s.lm.meta a.start_page
  · have hstate : realloc_step a size t s = s := by
      simp only [realloc_step, fm_lm_realloc, realloc_live_update,
        if_pos hle]
    rw [hstate]
    exact hWF
  · have hnle := hle
    push_neg at hle
    rcases hgo : adp_go
        (a.start_page + fetch_alloced_pages s.lm.meta a.start_page)
        (fm_roundup size FM_PAGE_SIZE / FM_PAGE_SIZE -
          fetch_alloced_pages s.lm.meta a.start_page) s.lm.free with
      _ | ⟨p0, fl0⟩
    · have hadp : alloc_designated_free_pages
          (a.start_page + fetch_alloced_pages s.lm.meta a.start_page)
          (fm_roundup size FM_PAGE_SIZE / FM_PAGE_SIZE -
            fetch_alloced_pages s.lm.meta a.start_page) s.lm.free =
          (0, s.lm.free) := by
        simp only [alloc_designated_free_pages, hgo]
      have hpos1 : 1 ≤ fm_roundup (fm_roundup size FM_PAGE_SIZE)
          FM_PAGE_SIZE / FM_PAGE_SIZE := by
        rw [fm_roundup_idem_page]
        omega
      have hWF1 := malloc_step_WF (fm_roundup size FM_PAGE_SIZE) t s hWF
        hpos1
      rcases hml : fm_lm_malloc (fm_roundup size FM_PAGE_SIZE) t s.lm with
        ⟨po, s2⟩
      cases po with
      | none =>
        have hstate : realloc_step a size t s = ⟨s2, s.live, s.total⟩ := by
          simp only [realloc_step, fm_lm_realloc, realloc_live_update,
            if_neg hnle, hadp, hml, if_neg (by omega : ¬ (0 : Nat) ≠ 0)]
        rw [hstate]
        have hm : malloc_step (fm_roundup size FM_PAGE_SIZE) t s =
            ⟨s2, s.live, s.total⟩ := by
          simp only [malloc_step, hml]
        rw [hm] at hWF1
        exact hWF1
      | some np =>
        have hm : malloc_step (fm_roundup size FM_PAGE_SIZE) t s =
            ⟨s2, ⟨np, fm_roundup size FM_PAGE_SIZE / FM_PAGE_SIZE⟩ ::
              s.live, s.total⟩ := by
          simp only [malloc_step, hml, fm_roundup_idem_page]
        rw [hm] at hWF1
        have hane : (⟨np, fm_roundup size FM_PAGE_SIZE / FM_PAGE_SIZE⟩ :
            Region) ≠ a := by
          intro hcontra
          have hpw := hWF1.live_pw
          rw [List.pairwise_cons] at hpw
          have hd := hpw.1 a ha
          rw [hcontra] at hd
          simp only [rdisj_def] at hd
          omega
        have hWF2 := free_step_WF a
          ⟨s2, ⟨np, fm_roundup size FM_PAGE_SIZE / FM_PAGE_SIZE⟩ ::
            s.live, s.total⟩ hWF1 (List.mem_cons_of_mem _ ha)
        have herase : ((⟨np, fm_roundup size FM_PAGE_SIZE / FM_PAGE_SIZE⟩ :
            Region) :: s.live).erase a =
            ⟨np, fm_roundup size FM_PAGE_SIZE / FM_PAGE_SIZE⟩ ::
              s.live.erase a :=
          List.erase_cons_tail (by simp [hane])
        have hstate : realloc_step a size t s = free_step a
            ⟨s2, ⟨np, fm_roundup size FM_PAGE_SIZE / FM_PAGE_SIZE⟩ ::
              s.live, s.total⟩ := by
          simp only [realloc_step, fm_lm_realloc, realloc_live_update,
            if_neg hnle, hadp, hml, if_neg (by omega : ¬ (0 : Nat) ≠ 0),
            free_step, herase]
        rw [hstate]
        exact hWF2
    · obtain ⟨hp0, ⟨r, hr, hrs, hrstop⟩, hch, hposl, hsub, hdisj⟩ :=
        adp_go_spec
          (a.start_page + fetch_alloced_pages s.lm.meta a.start_page)
          (fm_roundup size FM_PAGE_SIZE / FM_PAGE_SIZE -
            fetch_alloced_pages s.lm.meta a.start_page)
          (by omega) s.lm.free p0 fl0 hgo hWF.free_chain hWF.free_pos
      have hadp : alloc_designated_free_pages
          (a.start_page + fetch_alloced_pages s.lm.meta a.start_page)
          (fm_roundup size FM_PAGE_SIZE / FM_PAGE_SIZE -
            fetch_alloced_pages s.lm.meta a.start_page) s.lm.free =
          (p0, fl0) := by
        simp only [alloc_designated_free_pages, hgo]
      have hp0ne : p0 ≠ 0 := by omega
      have hstate : realloc_step a size t s =
          ⟨⟨fl0, s.lm.freed, s.lm.meta⟩,
            ⟨a.start_page, fm_roundup size FM_PAGE_SIZE / FM_PAGE_SIZE⟩ ::
              s.live.erase a, s.total⟩ := by
        simp only [realloc_step, fm_lm_realloc, realloc_live_update,
          if_neg hnle, hadp, if_pos hp0ne]
      rw [hstate]
      exact realloc_inplace_WF s hWF a ha
        (fm_roundup size FM_PAGE_SIZE / FM_PAGE_SIZE) fl0 r hr hrs
        (show a.start_page + fm_roundup size FM_PAGE_SIZE / FM_PAGE_SIZE ≤
          r.stop by omega)
        hle hch hposl hsub hdisj

/-- A successful reinit yields the single-region initial state, and the
size is page-aligned inside [128 KiB, 16 MiB). -/
theorem fm_lm_reinit_some (buffer size : Nat) (st : LMState)
    (h : fm_lm_reinit buffer size = some st) :
    st = ⟨[⟨1, size / FM_PAGE_SIZE - 1⟩], [], []⟩ ∧
    size % 4096 = 0 ∧ 131072 ≤ size ∧ size < 16777216 := by
  unfold fm_lm_reinit at h
  rw [show FM_PAGE_SIZE - 1 = 4095 from rfl, and_4095_eq_mod,
    and_4095_eq_mod] at h
  split_ifs at h with h1 h2 h3
  · simp only [Option.some.injEq] at h
    refine ⟨h.symm, by omega, by omega, by omega⟩

/-- The initial state after a successful reinit is well-formed. -/
theorem reinit_WF (buffer size : Nat) (st : LMState)
    (h : fm_lm_reinit buffer size = some st) :
    LMWF ⟨st, [], size / FM_PAGE_SIZE⟩ := by
  obtain ⟨hst, hal, hlo, hhi⟩ := fm_lm_reinit_some buffer size st h
  subst hst
  have htot_lo : 32 ≤ size / FM_PAGE_SIZE := by
    show 32 ≤ size / 4096
    omega
  have htot_hi : size / FM_PAGE_SIZE ≤ 4095 := by
    show size / 4096 ≤ 4095
    omega
  exact {
    total_lo := htot_lo
    total_hi := htot_hi
    free_chain := List.chain'_singleton _
    free_pos := by
      intro r hr
      simp only [List.mem_singleton] at hr
      subst hr
      show 1 ≤ size / 4096 - 1
      omega
    free_lo := by
      intro r hr
      simp only [List.mem_singleton] at hr
      subst hr
      exact le_refl 1
    free_hi := by
      intro r hr
      simp only [List.mem_singleton] at hr
      subst hr
      show 1 + (size / FM_PAGE_SIZE - 1) ≤ size / FM_PAGE_SIZE
      show 1 + (size / 4096 - 1) ≤ size / 4096
      omega
    freed_pos := by intro r hr; simp at hr
    freed_lo := by intro r hr; simp at hr
    freed_hi := by intro r hr; simp at hr
    live_pos := by intro r hr; simp at hr
    live_lo := by intro r hr; simp at hr
    live_hi := by intro r hr; simp at hr
    freed_pw := List.Pairwise.nil
    live_pw := List.Pairwise.nil
    free_freed := by intro r hr f hf; simp at hf
    free_live := by intro r hr y hy; simp at hy
    freed_live := by intro f hf y hy; simp at hf
    meta_lo := by intro y hy; simp at hy
    meta_le := by intro y hy; simp at hy
    meta_ext := by intro y hy; simp at hy }

/-- Every state reachable through positive-page malloc traces is
well-formed. -/
theorem ReachLM_WF (s : AllocState) (h : ReachLM 1 s) : LMWF s := by
  induction h with
  | init buffer size st hre => exact reinit_WF buffer size st hre
  | step_malloc s size t _ _ hminp ih => exact malloc_step_WF size t s ih hminp
  | step_free s a _ ha ih => exact free_step_WF a s ih ha
  | step_realloc s a size t _ ha _ ih => exact realloc_step_WF a size t s ih ha

/-- Claim C1 (amended): for every state reachable through the linear
API when every malloc request rounds up to at least one page, draining
the deferred-free list yields a free list that is strictly ascending in
start_page with no two consecutive records touching. (Without the
one-page restriction the claim fails: see the counterexample, where a
zero-size malloc defers a zero-length record whose drain duplicates a
start page.) -/
theorem C1_drain_sorted (s : AllocState) (h : ReachLM 1 s) :
    StrictAscendingNonTouching (restore_all_freed_memories s.lm).free := by
  have hWF := restore_all_WF s (ReachLM_WF s h)
  have hch := hWF.free_chain
  refine hch.imp ?_
  intro a b hab
  rw [rlt_def] at hab
  exact ⟨by omega, by omega⟩

/-- Witness for C1_drain_sorted at the freshly reinitialized 128 KiB
state. -/
theorem C1_drain_sorted_witness :
    StrictAscendingNonTouching (restore_all_freed_memories c1_s0.lm).free :=
  C1_drain_sorted c1_s0 (@ReachLM.init 1 0 131072 lm32_init (by decide))
